import Mathlib

/-!
Verification development for the etlutil repository.

This file shallow-embeds the container transform engine (`prune_data`), the
walker collector (`walk` / `_collect_data` / `_children_with_labels`) from
`src/etlutil/data_structures.py`, and the calendar range engine
(`get_relative_date_frame`, `DateRanges.calendar_periods`) from
`src/etlutil/date.py`, and proves the specified properties about them.

Python values are modelled by the mutually inductive type `Value` below:
primitives (`None`, `bool`, `int`, `str`) and the five container kinds the
engine distinguishes (`dict`, `list`, `tuple`, `set`, `frozenset`).  Floats,
`bytes` and `bytearray` are outside the modelled universe (the source only
ever tests for `bytes`/`bytearray` to exclude them from the sequence branch,
so dropping them does not change the behaviour on modelled values).  Sets are
modelled as lists in iteration order.
-/

namespace Etlutil

mutual
inductive Value : Type where
  | vnone : Value
  | vbool (b : Bool) : Value
  | vint (n : Int) : Value
  | vstr (s : String) : Value
  | vdict (entries : Entries) : Value
  | vlist (items : Values) : Value
  | vtuple (items : Values) : Value
  | vset (items : Values) : Value
  | vfrozenset (items : Values) : Value
  deriving DecidableEq
inductive Values : Type where
  | nil : Values
  | cons (head : Value) (tail : Values) : Values
  deriving DecidableEq
inductive Entries : Type where
  | nil : Entries
  | cons (key : Value) (val : Value) (tail : Entries) : Entries
  deriving DecidableEq
end

open Value

/-- Length of a value list (Python `len` on a list/tuple/set). -/
def Values.length : Values → Nat
  | .nil => 0
  | .cons _ t => t.length + 1

/-- Length of an entry list (Python `len` on a dict). -/
def Entries.length : Entries → Nat
  | .nil => 0
  | .cons _ _ t => t.length + 1

/-- Existential test over a value list (Python `any`). -/
def Values.any (f : Value → Bool) : Values → Bool
  | .nil => false
  | .cons h t => f h || t.any f

/-- Universal test over a value list (Python `all`). -/
def Values.all (f : Value → Bool) : Values → Bool
  | .nil => true
  | .cons h t => f h && t.all f

/-- Prefix of a value list (Python slicing `xs[:n]`). -/
def Values.take : Nat → Values → Values
  | 0, _ => .nil
  | _, .nil => .nil
  | n + 1, .cons h t => .cons h (t.take n)

/-- Conversion of an entry list to a Lean list of pairs. -/
def Entries.toList : Entries → List (Value × Value)
  | .nil => []
  | .cons k v t => (k, v) :: t.toList

/-- Conversion of a Lean list of pairs back into an entry list. -/
def Entries.ofList : List (Value × Value) → Entries
  | [] => .nil
  | (k, v) :: t => .cons k v (Entries.ofList t)

/-- Conversion of a value list to a Lean list. -/
def Values.toList : Values → List Value
  | .nil => []
  | .cons h t => h :: t.toList

/-- Conversion of a Lean list back into a value list. -/
def Values.ofList : List Value → Values
  | [] => .nil
  | h :: t => .cons h (Values.ofList t)

/-- The keys of an entry list, in insertion order. -/
def Entries.keysList : Entries → List Value
  | .nil => []
  | .cons k _ t => k :: t.keysList

/-! ## Python semantic helpers

`is_hashable` mirrors which values `hash()` accepts: `dict`, `list` and
`set` are unhashable; a `tuple` or `frozenset` is hashable iff all its
elements are; primitives are hashable. -/

mutual
def is_hashable : Value → Bool
  | vdict _ => false
  | vlist _ => false
  | vset _ => false
  | vtuple items => allHashable items
  | vfrozenset items => allHashable items
  | _ => true
def allHashable : Values → Bool
  | .nil => true
  | .cons h t => is_hashable h && allHashable t
end

/-- Python equality `==` on modelled values: `True == 1`, `False == 0`,
numeric equality for ints, structural order-sensitive equality for
lists/tuples, order-insensitive equality for dicts (same length and every
pair of the left dict found in the right one) and sets (mutual inclusion).
Mirrors the `x == candidate` membership test in `make_predicate`. -/
def boolToInt (b : Bool) : Int := if b then 1 else 0

mutual
def pyEq : Value → Value → Bool
  | vnone, vnone => true
  | vbool a, vbool b => a == b
  | vbool a, vint n => boolToInt a == n
  | vint n, vbool b => n == boolToInt b
  | vint a, vint b => a == b
  | vstr a, vstr b => a == b
  | vlist a, vlist b => pyEqValues a b
  | vtuple a, vtuple b => pyEqValues a b
  | vdict a, vdict b => a.length == b.length && pyDictIncl a b
  | vset a, vset b => pySetIncl a b && pySetIncl b a
  | vfrozenset a, vfrozenset b => pySetIncl a b && pySetIncl b a
  | _, _ => false
termination_by a b => sizeOf a + sizeOf b
decreasing_by all_goals (simp_wf; try omega)
def pyEqValues : Values → Values → Bool
  | .nil, .nil => true
  | .cons a as, .cons b bs => pyEq a b && pyEqValues as bs
  | _, _ => false
termination_by a b => sizeOf a + sizeOf b
decreasing_by all_goals (simp_wf; try omega)
def pyDictIncl : Entries → Entries → Bool
  | .nil, _ => true
  | .cons k v t, ys => pyDictFind k v ys && pyDictIncl t ys
termination_by a b => sizeOf a + sizeOf b
decreasing_by all_goals (simp_wf; try omega)
def pyDictFind : Value → Value → Entries → Bool
  | _, _, .nil => false
  | k, v, .cons k2 v2 rest => (pyEq k k2 && pyEq v v2) || pyDictFind k v rest
termination_by k v ys => sizeOf k + sizeOf v + sizeOf ys
decreasing_by all_goals (simp_wf; try omega)
def pySetIncl : Values → Values → Bool
  | .nil, _ => true
  | .cons a as, ys => pySetMem a ys && pySetIncl as ys
termination_by a b => sizeOf a + sizeOf b
decreasing_by all_goals (simp_wf; try omega)
def pySetMem : Value → Values → Bool
  | _, .nil => false
  | a, .cons b bs => pyEq a b || pySetMem a bs
termination_by a ys => sizeOf a + sizeOf ys
decreasing_by all_goals (simp_wf; try omega)
end

/-! ## The prune engine (`prune_data` in `src/etlutil/data_structures.py`)

The nested helpers of `prune_data` close over the normalized predicates,
`remove_empty` and `max_depth`; that closure environment is modelled by
`PruneArgs`. -/

/-- Empty-value rule of `prune_data.is_empty`: `None`, the empty string and
empty containers are empty; numbers (including 0) and booleans (including
False) are not. -/
def is_empty : Value → Bool
  | vnone => true
  | vstr s => s.length == 0
  | vdict es => es.length == 0
  | vset vs => vs.length == 0
  | vfrozenset vs => vs.length == 0
  | vlist vs => vs.length == 0
  | vtuple vs => vs.length == 0
  | _ => false

/-- Test for `isinstance(x, Sequence) and not isinstance(x, str | bytes | bytearray)`. -/
def is_seq_non_str : Value → Bool
  | vlist _ => true
  | vtuple _ => true
  | _ => false

/-- Test for `isinstance(x, AbcSet)` (which for modelled values coincides
with `isinstance(x, set | frozenset)`). -/
def is_set_like : Value → Bool
  | vset _ => true
  | vfrozenset _ => true
  | _ => false

/-- Closure environment of the nested `process` function. -/
structure PruneArgs where
  keyPred : Value → Bool
  valPred : Value → Bool
  removeEmpty : Bool
  maxDepth : Option Nat

/-- Argument bundle for a key-filter-only run of `prune_data` with a depth
limit: value predicate `None` (never true), `remove_empty=False`,
`max_depth=m`.  These are the arguments of the depth-monotonicity claim. -/
def keyOnlyArgs (kp : Value → Bool) (m : Nat) : PruneArgs :=
  ⟨kp, fun _ => false, false, some m⟩

/-- Gate `max_depth is None or (container_depth is not None and container_depth <= max_depth)`. -/
def canFilter (md : Option Nat) (d : Option Nat) : Bool :=
  match md with
  | none => true
  | some m => match d with
    | none => false
    | some dd => dd ≤ m

/-- Gate `max_depth is None or (container_depth is not None and container_depth < max_depth)`. -/
def canRecurse (md : Option Nat) (d : Option Nat) : Bool :=
  match md with
  | none => true
  | some m => match d with
    | none => false
    | some dd => dd < m

/-- Depth passed to a recursive call: `(0 if container_depth is None else container_depth) + 1`. -/
def childDepth (d : Option Nat) : Option Nat :=
  some ((d.getD 0) + 1)

mutual
/-- Recursive kernel `process` of `prune_data`: one branch per container
kind, primitives and unsupported values returned as-is. -/
def process (a : PruneArgs) : Value → Option Nat → Value
  | vdict entries, d => vdict (processDict a entries d)
  | vlist items, d => vlist (processSeq a items d)
  | vtuple items, d => vtuple (processSeq a items d)
  | vset items, d => vset (processSet a items d)
  | vfrozenset items, d => vfrozenset (processSet a items d)
  | v, _ => v
/-- Mapping branch of `process`: key filtering when allowed at this depth,
recursion into values when allowed, empty-removal, and the value predicate
applied only to non-sequence non-set children. -/
def processDict (a : PruneArgs) : Entries → Option Nat → Entries
  | .nil, _ => .nil
  | .cons k v rest, d =>
    if canFilter a.maxDepth d && a.keyPred k then processDict a rest d
    else
      let child := if canRecurse a.maxDepth d then process a v (childDepth d) else v
      if a.removeEmpty && is_empty child then processDict a rest d
      else if !(is_seq_non_str child || is_set_like child) && a.valPred child then
        processDict a rest d
      else .cons k child (processDict a rest d)
/-- Sequence branch of `process` (shared by list and tuple): recursion into
items when allowed, empty-removal, value-predicate filtering. -/
def processSeq (a : PruneArgs) : Values → Option Nat → Values
  | .nil, _ => .nil
  | .cons item rest, d =>
    let child := if canRecurse a.maxDepth d then process a item (childDepth d) else item
    if a.removeEmpty && is_empty child then processSeq a rest d
    else if a.valPred child then processSeq a rest d
    else .cons child (processSeq a rest d)
/-- Set branch of `process` (shared by set and frozenset): items that are
themselves `set | frozenset` are not recursed into; empty-removal and
value-predicate filtering; only hashable results are kept. -/
def processSet (a : PruneArgs) : Values → Option Nat → Values
  | .nil, _ => .nil
  | .cons item rest, d =>
    let child :=
      if canRecurse a.maxDepth d && !is_set_like item then process a item (childDepth d)
      else item
    if a.removeEmpty && is_empty child then processSet a rest d
    else if a.valPred child then processSet a rest d
    else if is_hashable child then .cons child (processSet a rest d)
    else processSet a rest d
end

/-- The `child` computed for a mapping or sequence element: recursion with
incremented depth when allowed at this depth, the raw value otherwise. -/
def pruneChild (a : PruneArgs) (v : Value) (d : Option Nat) : Value :=
  if canRecurse a.maxDepth d then process a v (childDepth d) else v

/-- The `child` computed for a set element: like `pruneChild` but items
that are themselves `set | frozenset` are never recursed into. -/
def setChild (a : PruneArgs) (v : Value) (d : Option Nat) : Value :=
  if canRecurse a.maxDepth d && !is_set_like v then process a v (childDepth d) else v

/-- Helper `empty_like` of `prune_data`: an empty container of the same
kind as the argument (empty string for strings, identity otherwise). -/
def empty_like : Value → Value
  | vdict _ => vdict .nil
  | vlist _ => vlist .nil
  | vtuple _ => vtuple .nil
  | vset _ => vset .nil
  | vfrozenset _ => vfrozenset .nil
  | vstr _ => vstr ""
  | v => v

/-- Removal-spec argument as classified by `make_predicate`: `None`, a
callable, an iterable of literal values, or anything else (`pinvalid`,
for which `list(obj)` raises `TypeError`). -/
inductive PredSpec : Type where
  | pnone : PredSpec
  | pcallable (f : Value → Bool) : PredSpec
  | piterable (items : Values) : PredSpec
  | pinvalid : PredSpec

/-- Errors raised by `prune_data`: `ValueError` for a negative `max_depth`,
`TypeError` from `make_predicate` for an invalid spec. -/
inductive PruneErr : Type where
  | valueErr (msg : String) : PruneErr
  | typeErr (msg : String) : PruneErr
  deriving DecidableEq

/-- Normalization `make_predicate`: returns the predicate together with the
is-empty flag, or the `TypeError` naming the offending parameter. -/
def make_predicate : PredSpec → String → Except PruneErr ((Value → Bool) × Bool)
  | .pnone, _ => .ok (fun _ => false, true)
  | .pcallable f, _ => .ok (f, false)
  | .piterable items, _ =>
    .ok (fun x => items.any (fun candidate => pyEq x candidate), items.length == 0)
  | .pinvalid, label => .error (.typeErr (label ++ " must be Iterable or Callable"))

/-- Body of `prune_data` after the `max_depth` validation: predicate
normalization, the fast-path short-circuit, the recursive kernel, and the
final empty-root replacement. -/
def prune_checked (data : Value) (keys_to_remove values_to_remove : PredSpec)
    (remove_empty : Bool) (md : Option Nat) : Except PruneErr Value :=
  match make_predicate keys_to_remove "keys_to_remove" with
  | .error e => .error e
  | .ok (kp, ke) =>
    match make_predicate values_to_remove "values_to_remove" with
    | .error e => .error e
    | .ok (vp, ve) =>
      if ke && ve && !remove_empty then .ok data
      else
        let a : PruneArgs := ⟨kp, vp, remove_empty, md⟩
        let root := process a data (match md with | some _ => some 0 | none => none)
        .ok (if remove_empty && is_empty root then empty_like data else root)

/-- Top-level `prune_data`: validates `max_depth` first (raising
`ValueError` when negative), then runs `prune_checked`. -/
def prune_data (data : Value) (keys_to_remove values_to_remove : PredSpec)
    (remove_empty : Bool) (max_depth : Option Int) : Except PruneErr Value :=
  match max_depth with
  | some m =>
    if m < 0 then .error (.valueErr "max_depth cannot be negative")
    else prune_checked data keys_to_remove values_to_remove remove_empty (some m.toNat)
  | none => prune_checked data keys_to_remove values_to_remove remove_empty none

/-! ## The walker collector (`walk` / `_collect_data` / `_children_with_labels`)

`_children_with_labels` labels mapping children by `str(key)` and sorts
keys (or set elements) with `sorted`, falling back to a string sort key on
`TypeError`.  We therefore model Python `str()` / `repr()` and `<` on the
value universe. -/

/-- Escaping used by Python string repr: backslash, the quote character and
common control characters. -/
def pyEscape (quote : Char) (s : String) : String :=
  s.foldl (fun acc c =>
    acc ++ (if c = '\\' then "\\\\"
      else if c = quote then "\\" ++ String.singleton quote
      else if c = '\n' then "\\n"
      else if c = '\r' then "\\r"
      else if c = '\t' then "\\t"
      else String.singleton c)) ""

/-- Python `repr` on strings: single quotes unless the string contains a
single quote and no double quote. -/
def pyReprString (s : String) : String :=
  if s.contains '\'' && !(s.contains '"') then
    "\"" ++ pyEscape '"' s ++ "\""
  else "'" ++ pyEscape '\'' s ++ "'"

/-- Comma-space join used by Python container repr. -/
def joinComma (l : List String) : String := String.intercalate ", " l

mutual
/-- Python `repr()` of a modelled value (container elements are shown with
`repr`, strings are quoted). -/
def pyRepr : Value → String
  | vnone => "None"
  | vbool true => "True"
  | vbool false => "False"
  | vint n => toString n
  | vstr s => pyReprString s
  | vlist items => "[" ++ joinComma (pyReprValues items) ++ "]"
  | vtuple (.cons h .nil) => "(" ++ pyRepr h ++ ",)"
  | vtuple items => "(" ++ joinComma (pyReprValues items) ++ ")"
  | vdict entries => "\x7b" ++ joinComma (pyReprEntries entries) ++ "\x7d"
  | vset .nil => "set()"
  | vset items => "\x7b" ++ joinComma (pyReprValues items) ++ "\x7d"
  | vfrozenset .nil => "frozenset()"
  | vfrozenset items => "frozenset(\x7b" ++ joinComma (pyReprValues items) ++ "\x7d)"
def pyReprValues : Values → List String
  | .nil => []
  | .cons h t => pyRepr h :: pyReprValues t
def pyReprEntries : Entries → List String
  | .nil => []
  | .cons k v t => (pyRepr k ++ ": " ++ pyRepr v) :: pyReprEntries t
end

/-- Python `str()` of a modelled value: like `repr` except that a string is
rendered without quotes. -/
def pyStr : Value → String
  | vstr s => s
  | v => pyRepr v

mutual
/-- Lexicographic code-point comparison of strings (Python `str < str`).
Stated on the character lists underlying the strings. -/
def pyStrLt (a b : String) : Bool := decide (a.data < b.data)

/-- Python `<` on modelled values, `none` meaning `TypeError`: numeric
comparison across bool/int, lexicographic on strings and sequences (list
with list, tuple with tuple), proper-subset on sets; everything else is
unorderable. -/
def pyLt (x y : Value) : Option Bool :=
  match x, y with
  | vbool a, vbool b => some (decide (boolToInt a < boolToInt b))
  | vbool a, vint n => some (decide (boolToInt a < n))
  | vint n, vbool b => some (decide (n < boolToInt b))
  | vint a, vint b => some (decide (a < b))
  | vstr a, vstr b => some (pyStrLt a b)
  | vlist a, vlist b => pyLtValues a b
  | vtuple a, vtuple b => pyLtValues a b
  | vset a, vset b => some (pySetIncl a b && !pySetIncl b a)
  | vset a, vfrozenset b => some (pySetIncl a b && !pySetIncl b a)
  | vfrozenset a, vset b => some (pySetIncl a b && !pySetIncl b a)
  | vfrozenset a, vfrozenset b => some (pySetIncl a b && !pySetIncl b a)
  | _, _ => none
termination_by structural x
/-- Python sequence comparison: skip `==` elements, compare the first
difference with `<`, shorter prefix is smaller. -/
def pyLtValues (xs ys : Values) : Option Bool :=
  match xs, ys with
  | .nil, .nil => some false
  | .nil, .cons _ _ => some true
  | .cons _ _, .nil => some false
  | .cons a as, .cons b bs => if pyEq a b then pyLtValues as bs else pyLt a b
termination_by structural xs
end

/-- Stable insertion of `x` into a sorted list: `x` is placed before the
first element strictly greater than it (so after all earlier equals, as in
Python's stable `sorted`). -/
def insertSorted (lt : α → α → Bool) (x : α) : List α → List α
  | [] => [x]
  | y :: ys => if lt x y then x :: y :: ys else y :: insertSorted lt x ys

/-- Stable ascending sort (models Python `sorted`). -/
def sortBy (lt : α → α → Bool) (l : List α) : List α :=
  l.foldl (fun acc x => insertSorted lt x acc) []

/-- Truth of `pyLt` used as a sort comparator (only consulted on values
already known to be comparable). -/
def ltB (a b : Value) : Bool := (pyLt a b).getD false

/-- All-pairs comparability: the model of "`sorted` does not raise
`TypeError`" (Python's sort may skip some comparisons; the claims proved
below never depend on which heterogeneous inputs take the fallback). -/
def allComparable (keys : List Value) : Bool :=
  keys.all (fun a => keys.all (fun b => (pyLt a b).isSome))

/-- Sorting step of `_children_with_labels` on `(key, child)` pairs: sort
by the first component with Python `<`, falling back to sorting by its
`str()` on unorderable keys.  Used both for mapping items (sort key
`kv[0]`) and — with pairs `(element, collected element)` — for set
elements (sorted by the element itself). -/
def sortPairsByFst (l : List (Value × Value)) : List (Value × Value) :=
  if allComparable (l.map Prod.fst) then sortBy (fun a b => ltB a.1 b.1) l
  else sortBy (fun a b => pyStrLt (pyStr a.1) (pyStr b.1)) l

/-- Truncation `xs[:max_items]` with `None` meaning no limit. -/
def takeOpt (n : Option Nat) (l : List α) : List α :=
  match n with
  | none => l
  | some m => l.take m

/-- Keyword options of `walk` that influence the collector. -/
structure WalkArgs where
  maxDepth : Option Nat
  maxItems : Option Nat
  sortKeys : Bool
  setSorted : Bool

/-- Depth-limit test `max_depth is not None and depth >= max_depth` of
`_collect_data`. -/
def at_depth_limit (md : Option Nat) (depth : Nat) : Bool :=
  match md with
  | none => false
  | some m => m ≤ depth

/-- Depth-limit collapse of `_collect_data`: an empty container of the same
concrete kind; primitives returned as-is. -/
def collapse_empty : Value → Value
  | vdict _ => vdict .nil
  | vlist _ => vlist .nil
  | vtuple _ => vtuple .nil
  | vset _ => vset .nil
  | vfrozenset _ => vfrozenset .nil
  | v => v

/-- Python dict assignment `result[label] = child` on an ordered
association list: an existing label keeps its position and receives the
new value, a new label is appended.  The labels are the `str(key)`
strings produced by `_children_with_labels`, and Python `==` on strings
is exactly structural string equality. -/
def dict_setitem : List (String × Value) → String → Value → List (String × Value)
  | [], label, child => [(label, child)]
  | (l0, c0) :: rest, label, child =>
    if l0 == label then (l0, child) :: rest
    else (l0, c0) :: dict_setitem rest label child

/-- The mapping-branch loop `result = \x7b\x7d; for label, child in children:
result[label] = child` of `_collect_data`: colliding `str(key)` labels
overwrite, so the collected dict can have fewer entries than the input. -/
def buildDict (pairs : List (Value × Value)) : List (String × Value) :=
  pairs.foldl (fun acc kv => dict_setitem acc (pyStr kv.1) kv.2) []

/-- Membership test of Python set construction (`==` against the elements
already added). -/
def pySetMemList : Value → List Value → Bool
  | _, [] => false
  | x, y :: ys => pyEq y x || pySetMemList x ys

/-- Python `set(items)` / `frozenset(items)` on a list of collected
elements: iterate in order, keeping the first occurrence of each
`==`-equality class (so the result can be smaller than the input). -/
def pySetOf (items : List Value) : List Value :=
  items.foldl (fun acc x => if pySetMemList x acc then acc else acc ++ [x]) []

/-- Test `isinstance(child, Mapping | Sequence | AbcSet) and not
isinstance(child, str | bytes | bytearray)` deciding whether `_collect_data`
recurses into a child. -/
def is_container : Value → Bool
  | vdict _ => true
  | vlist _ => true
  | vtuple _ => true
  | vset _ => true
  | vfrozenset _ => true
  | _ => false

mutual
/-- Collector `_collect_data`.  The source sorts/truncates the raw children
first and then recurses into each selected child; here each child is paired
with its collected value first and the pairs are then sorted by the raw
component and truncated.  The two orders agree: the stable sort compares
only the raw components (for mappings, only the unchanged keys), so it
produces the same permutation, truncation selects the same prefix, and
collecting a dropped child has no effect (collection is pure). -/
def collect_data (a : WalkArgs) : Value → Nat → Value
  | vdict entries, depth =>
    if at_depth_limit a.maxDepth depth then vdict .nil
    else
      let pairs := collectEntries a entries depth
      let ordered := if a.sortKeys then sortPairsByFst pairs else pairs
      vdict (Entries.ofList ((buildDict ordered).map (fun lc => (vstr lc.1, lc.2))))
  | vlist items, depth =>
    if at_depth_limit a.maxDepth depth then vlist .nil
    else vlist (Values.ofList (takeOpt a.maxItems (collectItems a items depth)))
  | vtuple items, depth =>
    if at_depth_limit a.maxDepth depth then vtuple .nil
    else vtuple (Values.ofList (takeOpt a.maxItems (collectItems a items depth)))
  | vset items, depth =>
    if at_depth_limit a.maxDepth depth then vset .nil
    else
      let pairs := collectPairs a items depth
      let ordered := if a.setSorted then sortPairsByFst pairs else pairs
      vset (Values.ofList (pySetOf ((takeOpt a.maxItems ordered).map Prod.snd)))
  | vfrozenset items, depth =>
    if at_depth_limit a.maxDepth depth then vfrozenset .nil
    else
      let pairs := collectPairs a items depth
      let ordered := if a.setSorted then sortPairsByFst pairs else pairs
      vfrozenset (Values.ofList (pySetOf ((takeOpt a.maxItems ordered).map Prod.snd)))
  | v, _ => v
/-- Mapping children of the collector: every key is kept (`max_items=None`
for mappings), container children are collected at `depth + 1`, primitives
are copied. -/
def collectEntries (a : WalkArgs) : Entries → Nat → List (Value × Value)
  | .nil, _ => []
  | .cons k v rest, depth =>
    (k, if is_container v then collect_data a v (depth + 1) else v) :: collectEntries a rest depth
/-- Sequence children of the collector. -/
def collectItems (a : WalkArgs) : Values → Nat → List Value
  | .nil, _ => []
  | .cons v rest, depth =>
    (if is_container v then collect_data a v (depth + 1) else v) :: collectItems a rest depth
/-- Set children of the collector, paired with the raw element for the
sorting/truncation step. -/
def collectPairs (a : WalkArgs) : Values → Nat → List (Value × Value)
  | .nil, _ => []
  | .cons v rest, depth =>
    (v, if is_container v then collect_data a v (depth + 1) else v) :: collectPairs a rest depth
end

/-- Return value of `walk`: the collected copy (tree printing is an output
side effect gated by `print_output` and does not influence the returned
value; it is not modelled). -/
def walk (a : WalkArgs) (item : Value) : Value := collect_data a item 0

/-! ## Calendar range engine (`src/etlutil/date.py`)

Dates are modelled as year/month/day triples in the proleptic Gregorian
calendar.  The source stores dates as ISO `YYYY-MM-DD` strings and compares
them with string comparison, which on valid (zero-padded, four-digit-year)
dates coincides with the chronological order `dlt` below.  `timedelta` day
arithmetic is modelled by iterating the successor/predecessor day. -/

structure Date where
  year : Int
  month : Nat
  day : Nat
  deriving DecidableEq

/-- Gregorian leap-year rule. -/
def isLeap (y : Int) : Bool := y % 4 == 0 && (y % 100 != 0 || y % 400 == 0)

/-- Number of days of a month (28/29 for February depending on leap year). -/
def daysInMonth (y : Int) (m : Nat) : Nat :=
  match m with
  | 2 => if isLeap y then 29 else 28
  | 4 => 30
  | 6 => 30
  | 9 => 30
  | 11 => 30
  | _ => 31

/-- Calendar validity of a date triple. -/
def Date.Valid (d : Date) : Prop :=
  1 ≤ d.month ∧ d.month ≤ 12 ∧ 1 ≤ d.day ∧ d.day ≤ daysInMonth d.year d.month

instance (d : Date) : Decidable d.Valid := by unfold Date.Valid; infer_instance

/-- Chronological strict order on date triples; on valid dates this is the
order of the ISO strings the source compares. -/
def dlt (a b : Date) : Prop :=
  a.year < b.year ∨ (a.year = b.year ∧
    (a.month < b.month ∨ (a.month = b.month ∧ a.day < b.day)))

/-- Chronological non-strict order on date triples. -/
def dle (a b : Date) : Prop := dlt a b ∨ a = b

instance (a b : Date) : Decidable (dlt a b) := by unfold dlt; infer_instance

instance (a b : Date) : Decidable (dle a b) := by unfold dle; infer_instance

/-- Next calendar day. -/
def succDay (d : Date) : Date :=
  if d.day < daysInMonth d.year d.month then ⟨d.year, d.month, d.day + 1⟩
  else if d.month < 12 then ⟨d.year, d.month + 1, 1⟩
  else ⟨d.year + 1, 1, 1⟩

/-- Previous calendar day. -/
def predDay (d : Date) : Date :=
  if 1 < d.day then ⟨d.year, d.month, d.day - 1⟩
  else if 1 < d.month then ⟨d.year, d.month - 1, daysInMonth d.year (d.month - 1)⟩
  else ⟨d.year - 1, 12, 31⟩

/-- Addition of days (`date + timedelta(days=n)`, n ≥ 0). -/
def addDays (d : Date) : Nat → Date
  | 0 => d
  | n + 1 => addDays (succDay d) n

/-- Subtraction of days (`date - timedelta(days=n)`, n ≥ 0). -/
def subDays (d : Date) : Nat → Date
  | 0 => d
  | n + 1 => subDays (predDay d) n

/-- Signed day addition (`date + timedelta(days=n)`). -/
def addDaysInt (d : Date) (n : Int) : Date :=
  if 0 ≤ n then addDays d n.toNat else subDays d (-n).toNat

/-- Calendar month addition with day clamping (pendulum `add(months=n)`):
move by whole months, clamping the day to the length of the target month. -/
def addMonths (d : Date) (n : Int) : Date :=
  let mi : Int := 12 * d.year + ((d.month : Int) - 1) + n
  let y : Int := mi / 12
  let m : Nat := (mi % 12).toNat + 1
  ⟨y, m, min d.day (daysInMonth y m)⟩

/-- Calendar year addition with February-29 clamping (pendulum
`add(years=n)`). -/
def addYears (d : Date) (n : Int) : Date :=
  let y : Int := d.year + n
  ⟨y, d.month, min d.day (daysInMonth y d.month)⟩

/-- Civil day number (a Rata-Die-style count); only its residue class mod 7
is used, to compute the weekday. -/
def rataDie (d : Date) : Int :=
  let yAdj : Int := if d.month ≤ 2 then d.year - 1 else d.year
  let mp : Int := if d.month ≤ 2 then (d.month : Int) + 9 else (d.month : Int) - 3
  365 * yAdj + yAdj.fdiv 4 - yAdj.fdiv 100 + yAdj.fdiv 400 + (153 * mp + 2) / 5 + (d.day : Int)

/-- Weekday with Monday = 0 (pendulum weeks start on Monday, ISO 8601);
the anchor constant is calibrated below on known dates. -/
def weekday (d : Date) : Nat := ((rataDie d + 1) % 7).toNat

/-- Period literals accepted by `get_relative_date_frame` (the exact,
case-sensitive match of the source; any other string raises `ValueError`
before any date is computed, which is outside this model's domain type). -/
inductive DatePart : Type where
  | day : DatePart
  | week : DatePart
  | month : DatePart
  | quarter : DatePart
  | year : DatePart
  deriving DecidableEq

/-- Frame computation `get_relative_date_frame(date_part, n, date_from)`:
start and end dates of the period at offset `n` relative to the anchor.
WEEK snaps to the Monday-started week; QUARTER advances by `3 * n` months
and snaps the month down to the nearest quarter start (1, 4, 7, 10). -/
def get_relative_date_frame (date_part : DatePart) (n : Int) (date_from : Date) : Date × Date :=
  match date_part with
  | .day =>
    let target := addDaysInt date_from n
    (target, target)
  | .week =>
    let target := addDaysInt date_from (7 * n)
    let start := subDays target (weekday target)
    (start, addDays start 6)
  | .month =>
    let target := addMonths date_from n
    (⟨target.year, target.month, 1⟩, ⟨target.year, target.month, daysInMonth target.year target.month⟩)
  | .quarter =>
    let target := addMonths date_from (3 * n)
    let quarter_month : Nat := ((target.month - 1) / 3) * 3 + 1
    (⟨target.year, quarter_month, 1⟩,
     ⟨target.year, quarter_month + 2, daysInMonth target.year (quarter_month + 2)⟩)
  | .year =>
    let target := addYears date_from n
    (⟨target.year, 1, 1⟩, ⟨target.year, 12, 31⟩)

/-- Boolean form of `dlt` (the `>` comparison of ISO strings in the
source, with arguments flipped). -/
def dltB (a b : Date) : Bool := decide (dlt a b)

/-- Model of `DateRanges.calendar_periods`: for `i in range(count)` compute
the frame at offset `-i` from `date_end`; when `trim_last_period` is set
and the frame end exceeds `date_end`, clip it to `date_end`. -/
def calendar_periods (date_part : DatePart) (count : Nat) (date_end : Date)
    (trim_last_period : Bool) : List (Date × Date) :=
  (List.range count).map (fun i : Nat =>
    let fr := get_relative_date_frame date_part (-(i : Int)) date_end
    if trim_last_period && dltB date_end fr.2 then (fr.1, date_end) else fr)

/-- Concrete kind of a value: models Python `type(x)` on the modelled
universe (the engine distinguishes exactly these kinds, and primitives are
returned as the same object). -/
inductive Kind : Type where
  | noneK : Kind
  | boolK : Kind
  | intK : Kind
  | strK : Kind
  | dictK : Kind
  | listK : Kind
  | tupleK : Kind
  | setK : Kind
  | frozensetK : Kind
  deriving DecidableEq

/-- Kind (Python concrete type) of a modelled value. -/
def kindOf : Value → Kind
  | vnone => .noneK
  | vbool _ => .boolK
  | vint _ => .intK
  | vstr _ => .strK
  | vdict _ => .dictK
  | vlist _ => .listK
  | vtuple _ => .tupleK
  | vset _ => .setK
  | vfrozenset _ => .frozensetK

mutual
/-- Python-constructibility of a modelled value: every element of a set or
frozenset is hashable, and every mapping key is hashable (Python cannot
build a set or dict violating this). -/
def wf : Value → Bool
  | vdict es => wfEntries es
  | vlist vs => wfValues vs
  | vtuple vs => wfValues vs
  | vset vs => allHashable vs && wfValues vs
  | vfrozenset vs => allHashable vs && wfValues vs
  | _ => true
def wfValues : Values → Bool
  | .nil => true
  | .cons h t => wf h && wfValues t
def wfEntries : Entries → Bool
  | .nil => true
  | .cons k v t => is_hashable k && wf k && wf v && wfEntries t
end

/-! ## Helper lemmas

The examples below calibrate the date model against known calendar facts
(2024-01-01 was a Monday; Q3 2024 runs 2024-07-01 through 2024-09-30). -/

example : weekday ⟨2024, 1, 1⟩ = 0 := by decide
example : weekday ⟨2024, 6, 16⟩ = 6 := by decide
example : weekday ⟨2000, 2, 29⟩ = 1 := by decide
example : get_relative_date_frame .quarter 1 ⟨2024, 6, 15⟩ = (⟨2024, 7, 1⟩, ⟨2024, 9, 30⟩) := by decide
example : get_relative_date_frame .month 0 ⟨2024, 6, 15⟩ = (⟨2024, 6, 1⟩, ⟨2024, 6, 30⟩) := by decide
example : get_relative_date_frame .month (-1) ⟨2024, 1, 15⟩ = (⟨2023, 12, 1⟩, ⟨2023, 12, 31⟩) := by decide
example : get_relative_date_frame .week 0 ⟨2024, 6, 15⟩ = (⟨2024, 6, 10⟩, ⟨2024, 6, 16⟩) := by decide
example : get_relative_date_frame .year (-2) ⟨2024, 6, 15⟩ = (⟨2022, 1, 1⟩, ⟨2022, 12, 31⟩) := by decide
example : get_relative_date_frame .quarter (-1) ⟨2024, 6, 15⟩ = (⟨2024, 1, 1⟩, ⟨2024, 3, 31⟩) := by decide

lemma values_length_eq_zero : ∀ {vs : Values}, vs.length = 0 ↔ vs = .nil := by
  intro vs
  cases vs <;> simp [Values.length]

lemma entries_length_eq_zero : ∀ {es : Entries}, es.length = 0 ↔ es = .nil := by
  intro es
  cases es <;> simp [Entries.length]

lemma str_eq_empty_of_length (s : String) (h : s.length = 0) : s = "" := by
  cases s with
  | mk data =>
    simp [String.length] at h
    simp [h]

/-! ## Claim theorems -/

/-- C1: with `remove_empty=True`, `prune_data` treats as empty exactly the
values that are `None`, the empty string, or an empty container of any
kind; zero and boolean False are never empty; and the concrete pruning
example from the spec evaluates as stated. -/
theorem prune_remove_empty_spec :
    (∀ v : Value, is_empty v = true ↔
      (v = vnone ∨ v = vstr "" ∨ v = vdict .nil ∨ v = vlist .nil ∨
       v = vtuple .nil ∨ v = vset .nil ∨ v = vfrozenset .nil)) ∧
    is_empty (vint 0) = false ∧ is_empty (vbool false) = false ∧
    prune_data
      (vdict (Entries.ofList
        [(vstr "f", vint 0), (vstr "g", vbool false),
         (vstr "h", vlist (Values.ofList
           [vnone, vstr "", vlist .nil, vdict .nil, vset .nil,
            vint 0, vbool false, vint 3]))]))
      (PredSpec.piterable .nil) PredSpec.pnone true none
    = .ok (vdict (Entries.ofList
        [(vstr "f", vint 0), (vstr "g", vbool false),
         (vstr "h", vlist (Values.ofList [vint 0, vbool false, vint 3]))])) := by
  refine ⟨?_, rfl, rfl, rfl⟩
  intro v
  cases v <;>
    simp [is_empty, values_length_eq_zero, entries_length_eq_zero]
  exact ⟨str_eq_empty_of_length _, fun h => by subst h; rfl⟩

/-- C2: when both removal specs normalize to structurally empty predicates
(`None` or an empty iterable) and `remove_empty` is false, `prune_data`
takes the documented fast path and returns its input unchanged (in the
source this is the same object, not merely an equal one; in this pure
embedding the fast path returns the input term itself). -/
theorem prune_fast_path_identity :
    ∀ (x : Value) (ks vs : PredSpec) (md : Option Int),
      (ks = .pnone ∨ ks = .piterable .nil) →
      (vs = .pnone ∨ vs = .piterable .nil) →
      (∀ m ∈ md, 0 ≤ m) →
      prune_data x ks vs false md = .ok x := by
  intro x ks vs md hks hvs hmd
  have hmd2 : ∀ m, md = some m → ¬(m < 0) := by
    intro m hm
    have := hmd m (by simp [hm, Option.mem_def])
    omega
  rcases hks with rfl | rfl <;> rcases hvs with rfl | rfl <;>
    cases md with
    | none => simp [prune_data, prune_checked, make_predicate, Values.length]
    | some m =>
      simp [prune_data, hmd2 m rfl, prune_checked, make_predicate, Values.length]

/-- Witness for C2 at a concrete input. -/
theorem prune_fast_path_identity_witness :
    prune_data (vlist (Values.ofList [vint 1])) .pnone (.piterable .nil) false (some 3)
      = .ok (vlist (Values.ofList [vint 1])) :=
  prune_fast_path_identity _ _ _ _ (Or.inl rfl) (Or.inr rfl)
    (by intro m hm; simp [Option.mem_def] at hm; omega)

/-- C9: `prune_data` raises before any traversal exactly when `max_depth`
is negative or one of the removal specs is neither `None`, callable, nor
iterable; the `ValueError` for the depth is checked first, and the
`TypeError` for a spec names the offending parameter (`keys_to_remove`
before `values_to_remove`); no other input raises. -/
theorem prune_data_error_iff :
    ∀ (data : Value) (ks vs : PredSpec) (re : Bool) (md : Option Int),
      ((∃ e, prune_data data ks vs re md = .error e) ↔
        ((∃ m, md = some m ∧ m < 0) ∨ ks = .pinvalid ∨ vs = .pinvalid)) ∧
      ((∃ m, md = some m ∧ m < 0) →
        prune_data data ks vs re md = .error (.valueErr "max_depth cannot be negative")) ∧
      ((∀ m ∈ md, 0 ≤ m) → ks = .pinvalid →
        prune_data data ks vs re md
          = .error (.typeErr "keys_to_remove must be Iterable or Callable")) ∧
      ((∀ m ∈ md, 0 ≤ m) → ks ≠ .pinvalid → vs = .pinvalid →
        prune_data data ks vs re md
          = .error (.typeErr "values_to_remove must be Iterable or Callable")) := by
  intro data ks vs re md
  have hok : ∀ (hmd : ∀ m ∈ md, 0 ≤ m), ks ≠ .pinvalid → vs ≠ .pinvalid →
      ∃ y, prune_data data ks vs re md = .ok y := by
    intro hmd hks hvs
    have step : ∃ y, prune_checked data ks vs re (md.map Int.toNat) = .ok y := by
      cases ks <;> cases vs <;> simp_all <;>
        · simp only [prune_checked, make_predicate]
          split <;> exact ⟨_, rfl⟩
    cases md with
    | none => simpa [prune_data] using step
    | some m =>
      have h0 : ¬(m < 0) := by have := hmd m (by simp [Option.mem_def]); omega
      simpa [prune_data, h0, Option.map] using step
  have hdepth : (∃ m, md = some m ∧ m < 0) →
      prune_data data ks vs re md = .error (.valueErr "max_depth cannot be negative") := by
    intro ⟨m, hm, hneg⟩
    subst hm
    simp [prune_data, hneg]
  have hkeys : (∀ m ∈ md, 0 ≤ m) → ks = .pinvalid →
      prune_data data ks vs re md
        = .error (.typeErr "keys_to_remove must be Iterable or Callable") := by
    intro hmd hks
    subst hks
    cases md with
    | none => simp [prune_data, prune_checked, make_predicate]
    | some m =>
      have h0 : ¬(m < 0) := by have := hmd m (by simp [Option.mem_def]); omega
      simp [prune_data, h0, prune_checked, make_predicate]
  have hvals : (∀ m ∈ md, 0 ≤ m) → ks ≠ .pinvalid → vs = .pinvalid →
      prune_data data ks vs re md
        = .error (.typeErr "values_to_remove must be Iterable or Callable") := by
    intro hmd hks hvs
    subst hvs
    have step : prune_checked data ks .pinvalid re (md.map Int.toNat)
        = .error (.typeErr "values_to_remove must be Iterable or Callable") := by
      cases ks <;> simp_all <;> simp [prune_checked, make_predicate]
    cases md with
    | none => simpa [prune_data] using step
    | some m =>
      have h0 : ¬(m < 0) := by have := hmd m (by simp [Option.mem_def]); omega
      simpa [prune_data, h0, Option.map] using step
  refine ⟨?_, hdepth, hkeys, hvals⟩
  constructor
  · intro ⟨e, he⟩
    by_contra hcon
    push_neg at hcon
    obtain ⟨h1, h2, h3⟩ := hcon
    have hmd : ∀ m ∈ md, 0 ≤ m := by
      intro m hm
      simp [Option.mem_def] at hm
      have := h1 m hm
      omega
    obtain ⟨y, hy⟩ := hok hmd h2 h3
    rw [hy] at he
    exact absurd he (by simp)
  · intro h
    by_cases hneg : ∃ m, md = some m ∧ m < 0
    · exact ⟨_, hdepth hneg⟩
    · have hmd : ∀ m ∈ md, 0 ≤ m := by
        intro m hm
        simp [Option.mem_def] at hm
        push_neg at hneg
        have := hneg m hm
        omega
      rcases h with h | h | h
      · exact absurd h hneg
      · exact ⟨_, hkeys hmd h⟩
      · by_cases hks : ks = .pinvalid
        · exact ⟨_, hkeys hmd hks⟩
        · exact ⟨_, hvals hmd hks h⟩

/-- Witness for C9 at concrete inputs: an invalid key spec raises the
`TypeError` naming `keys_to_remove`, and a negative depth raises the
`ValueError`. -/
theorem prune_data_error_iff_witness :
    prune_data vnone .pinvalid .pnone false none
      = .error (.typeErr "keys_to_remove must be Iterable or Callable") ∧
    prune_data vnone .pnone .pnone false (some (-1))
      = .error (.valueErr "max_depth cannot be negative") :=
  ⟨(prune_data_error_iff vnone .pinvalid .pnone false none).2.2.1
      (by intro m hm; simp [Option.mem_def] at hm) rfl,
   (prune_data_error_iff vnone .pnone .pnone false (some (-1))).2.1 ⟨-1, rfl, by omega⟩⟩

/-- C10: a root that is not a mapping, sequence or set is returned
unchanged by `prune_data` for every valid argument combination — the value
predicate and the emptiness rule are never applied to the root itself. -/
theorem prune_primitive_root_unchanged :
    ∀ (x : Value) (ks vs : PredSpec) (re : Bool) (md : Option Int),
      is_container x = false → ks ≠ .pinvalid → vs ≠ .pinvalid → (∀ m ∈ md, 0 ≤ m) →
      prune_data x ks vs re md = .ok x := by
  intro x ks vs re md hx hks hvs hmd
  have hroot : ∀ (a : PruneArgs) (d : Option Nat), process a x d = x := by
    intro a d
    cases x <;> simp_all [is_container, process]
  have hwrap : (if re && is_empty x then empty_like x else x) = x := by
    by_cases hre : (re && is_empty x) = true
    · rw [if_pos hre]
      have he : is_empty x = true := by
        rw [Bool.and_eq_true] at hre
        exact hre.2
      cases x with
      | vnone => rfl
      | vbool b => rfl
      | vint n => rfl
      | vstr s =>
        have hs : s = "" := by
          apply str_eq_empty_of_length
          simp [is_empty] at he
          exact he
        simp [empty_like, hs]
      | vdict es => exact absurd hx (by simp [is_container])
      | vlist l => exact absurd hx (by simp [is_container])
      | vtuple l => exact absurd hx (by simp [is_container])
      | vset l => exact absurd hx (by simp [is_container])
      | vfrozenset l => exact absurd hx (by simp [is_container])
    · rw [if_neg (by simpa using hre)]
  have hchecked : ∀ mdn, prune_checked x ks vs re mdn = .ok x := by
    intro mdn
    have hmk : ∃ kp ke, make_predicate ks "keys_to_remove" = .ok (kp, ke) := by
      cases ks with
      | pnone => exact ⟨_, _, rfl⟩
      | pcallable f => exact ⟨_, _, rfl⟩
      | piterable items => exact ⟨_, _, rfl⟩
      | pinvalid => exact absurd rfl hks
    have hmv : ∃ vp ve, make_predicate vs "values_to_remove" = .ok (vp, ve) := by
      cases vs with
      | pnone => exact ⟨_, _, rfl⟩
      | pcallable f => exact ⟨_, _, rfl⟩
      | piterable items => exact ⟨_, _, rfl⟩
      | pinvalid => exact absurd rfl hvs
    obtain ⟨kp, ke, hk⟩ := hmk
    obtain ⟨vp, ve, hv⟩ := hmv
    simp only [prune_checked.eq_def, hk, hv]
    split
    · rfl
    · rw [hroot]
      exact congrArg Except.ok hwrap
  cases md with
  | none => simp [prune_data, hchecked]
  | some m =>
    have h0 : ¬(m < 0) := by have := hmd m (by simp [Option.mem_def]); omega
    simp [prune_data, h0, hchecked]

/-- Witness for C10 at the concrete inputs named in the claim. -/
theorem prune_primitive_root_unchanged_witness :
    prune_data (vint 5) .pnone (.piterable (Values.ofList [vint 5])) true none = .ok (vint 5) ∧
    prune_data vnone .pnone .pnone true none = .ok vnone :=
  ⟨prune_primitive_root_unchanged (vint 5) _ _ true none rfl
      (by intro h; exact PredSpec.noConfusion h) (by intro h; exact PredSpec.noConfusion h)
      (by intro m hm; simp [Option.mem_def] at hm),
   prune_primitive_root_unchanged vnone _ _ true none rfl
      (by intro h; exact PredSpec.noConfusion h) (by intro h; exact PredSpec.noConfusion h)
      (by intro m hm; simp [Option.mem_def] at hm)⟩


/-- Kind preservation of the recursive prune kernel: each branch of
`process` rebuilds a container of the same concrete kind, and primitives
are returned as-is.  Quantified over every value and depth, so it applies
to every node processed during a run. -/
lemma kindOf_process (a : PruneArgs) (v : Value) (d : Option Nat) :
    kindOf (process a v d) = kindOf v := by
  cases v <;> rfl

/-- At the depth limit, the collector returns the depth collapse of its
argument. -/
lemma collect_data_at_limit (a : WalkArgs) (v : Value) (dep : Nat)
    (h : at_depth_limit a.maxDepth dep = true) :
    collect_data a v dep = collapse_empty v := by
  cases v <;> simp [collect_data, collapse_empty, h]

/-- Kind preservation of the collector: below the depth limit each branch
rebuilds a container of the same concrete kind; at the limit the collapse
is an empty container of the same kind; primitives are returned as-is. -/
lemma kindOf_collect_data (a : WalkArgs) (v : Value) (dep : Nat) :
    kindOf (collect_data a v dep) = kindOf v := by
  cases v <;> simp only [collect_data] <;> first
  | rfl
  | (split <;> rfl)

/-- C4: both `prune_data`'s kernel and `walk`'s collector preserve the
concrete type of every node they process; the only exception is the
collector's depth collapse, which yields an *empty* container of the same
concrete type. -/
theorem prune_walk_type_preservation :
    (∀ (a : PruneArgs) (v : Value) (d : Option Nat), kindOf (process a v d) = kindOf v) ∧
    (∀ (a : WalkArgs) (v : Value) (dep : Nat), kindOf (collect_data a v dep) = kindOf v) ∧
    (∀ (a : WalkArgs) (v : Value) (dep : Nat),
      at_depth_limit a.maxDepth dep = true →
        collect_data a v dep = collapse_empty v ∧
        kindOf (collapse_empty v) = kindOf v ∧
        (is_container v = true → is_empty (collapse_empty v) = true)) := by
  refine ⟨kindOf_process, kindOf_collect_data, ?_⟩
  intro a v dep h
  refine ⟨collect_data_at_limit a v dep h, ?_, ?_⟩
  · cases v <;> rfl
  · intro hc
    cases v <;> simp_all [is_container, collapse_empty, is_empty, Values.length, Entries.length]

/-- Witness for C4: the depth-collapse clause at a concrete input. -/
theorem prune_walk_type_preservation_witness :
    collect_data ⟨some 1, none, true, true⟩ (vlist (Values.ofList [vint 1])) 1 = vlist .nil ∧
    kindOf (vlist .nil) = kindOf (vlist (Values.ofList [vint 1])) :=
  ⟨((prune_walk_type_preservation.2.2 ⟨some 1, none, true, true⟩
      (vlist (Values.ofList [vint 1])) 1 rfl).1).trans rfl,
   (prune_walk_type_preservation.2.2 ⟨some 1, none, true, true⟩
      (vlist (Values.ofList [vint 1])) 1 rfl).2.1⟩


/-! ## Unfolding equations for the prune kernel -/

lemma process_eq (a : PruneArgs) (d : Option Nat) :
    (∀ es, process a (vdict es) d = vdict (processDict a es d)) ∧
    (∀ vs, process a (vlist vs) d = vlist (processSeq a vs d)) ∧
    (∀ vs, process a (vtuple vs) d = vtuple (processSeq a vs d)) ∧
    (∀ vs, process a (vset vs) d = vset (processSet a vs d)) ∧
    (∀ vs, process a (vfrozenset vs) d = vfrozenset (processSet a vs d)) :=
  ⟨fun _ => rfl, fun _ => rfl, fun _ => rfl, fun _ => rfl, fun _ => rfl⟩

lemma processDict_cons (a : PruneArgs) (k v : Value) (rest : Entries) (d : Option Nat) :
    processDict a (.cons k v rest) d =
      if canFilter a.maxDepth d && a.keyPred k then processDict a rest d
      else if a.removeEmpty && is_empty (pruneChild a v d) then processDict a rest d
      else if !(is_seq_non_str (pruneChild a v d) || is_set_like (pruneChild a v d))
          && a.valPred (pruneChild a v d) then processDict a rest d
      else .cons k (pruneChild a v d) (processDict a rest d) := rfl

lemma processSeq_cons (a : PruneArgs) (item : Value) (rest : Values) (d : Option Nat) :
    processSeq a (.cons item rest) d =
      if a.removeEmpty && is_empty (pruneChild a item d) then processSeq a rest d
      else if a.valPred (pruneChild a item d) then processSeq a rest d
      else .cons (pruneChild a item d) (processSeq a rest d) := rfl

lemma processSet_cons (a : PruneArgs) (item : Value) (rest : Values) (d : Option Nat) :
    processSet a (.cons item rest) d =
      if a.removeEmpty && is_empty (setChild a item d) then processSet a rest d
      else if a.valPred (setChild a item d) then processSet a rest d
      else if is_hashable (setChild a item d) then .cons (setChild a item d) (processSet a rest d)
      else processSet a rest d := rfl

/-- Each branch of `process` leaves the `set | frozenset` test invariant. -/
lemma is_set_like_process (a : PruneArgs) (v : Value) (d : Option Nat) :
    is_set_like (process a v d) = is_set_like v := by
  cases v <;> rfl

/-! ## Idempotence of the prune kernel (C7) -/

mutual
theorem process_idem (a : PruneArgs) (v : Value) : ∀ (d : Option Nat),
    process a (process a v d) d = process a v d := by
  intro d
  cases v with
  | vdict es => rw [(process_eq a d).1, (process_eq a d).1, processDict_idem a es]
  | vlist items => rw [(process_eq a d).2.1, (process_eq a d).2.1, processSeq_idem a items]
  | vtuple items => rw [(process_eq a d).2.2.1, (process_eq a d).2.2.1, processSeq_idem a items]
  | vset items => rw [(process_eq a d).2.2.2.1, (process_eq a d).2.2.2.1, processSet_idem a items]
  | vfrozenset items =>
    rw [(process_eq a d).2.2.2.2, (process_eq a d).2.2.2.2, processSet_idem a items]
  | vnone => rfl
  | vbool b => rfl
  | vint n => rfl
  | vstr s => rfl
theorem pruneChild_idem (a : PruneArgs) (v : Value) : ∀ (d : Option Nat),
    pruneChild a (pruneChild a v d) d = pruneChild a v d := by
  intro d
  unfold pruneChild
  by_cases hr : canRecurse a.maxDepth d = true
  · rw [if_pos hr, if_pos hr]
    exact process_idem a v (childDepth d)
  · rw [if_neg hr, if_neg hr]
theorem setChild_idem (a : PruneArgs) (v : Value) : ∀ (d : Option Nat),
    setChild a (setChild a v d) d = setChild a v d := by
  intro d
  unfold setChild
  by_cases hcond : (canRecurse a.maxDepth d && !is_set_like v) = true
  · rw [if_pos hcond]
    have h2 : (canRecurse a.maxDepth d && !is_set_like (process a v (childDepth d))) = true := by
      rw [is_set_like_process]
      exact hcond
    rw [if_pos h2]
    exact process_idem a v (childDepth d)
  · have h1 : (canRecurse a.maxDepth d && !is_set_like v) = false := by
      simpa using hcond
    simp only [h1, Bool.false_eq_true, if_false]
theorem processDict_idem (a : PruneArgs) (es : Entries) : ∀ (d : Option Nat),
    processDict a (processDict a es d) d = processDict a es d := by
  intro d
  cases es with
  | nil => rfl
  | cons k v rest =>
    rw [processDict_cons]
    by_cases hf : (canFilter a.maxDepth d && a.keyPred k) = true
    · rw [if_pos hf]
      exact processDict_idem a rest d
    · rw [if_neg hf]
      by_cases he : (a.removeEmpty && is_empty (pruneChild a v d)) = true
      · rw [if_pos he]
        exact processDict_idem a rest d
      · rw [if_neg he]
        by_cases hv : (!(is_seq_non_str (pruneChild a v d) || is_set_like (pruneChild a v d))
            && a.valPred (pruneChild a v d)) = true
        · rw [if_pos hv]
          exact processDict_idem a rest d
        · rw [if_neg hv, processDict_cons, if_neg hf, pruneChild_idem a v d,
            if_neg he, if_neg hv, processDict_idem a rest d]
theorem processSeq_idem (a : PruneArgs) (vs : Values) : ∀ (d : Option Nat),
    processSeq a (processSeq a vs d) d = processSeq a vs d := by
  intro d
  cases vs with
  | nil => rfl
  | cons item rest =>
    rw [processSeq_cons]
    by_cases he : (a.removeEmpty && is_empty (pruneChild a item d)) = true
    · rw [if_pos he]
      exact processSeq_idem a rest d
    · rw [if_neg he]
      by_cases hv : a.valPred (pruneChild a item d) = true
      · rw [if_pos hv]
        exact processSeq_idem a rest d
      · rw [if_neg hv, processSeq_cons, pruneChild_idem a item d,
          if_neg he, if_neg hv, processSeq_idem a rest d]
theorem processSet_idem (a : PruneArgs) (vs : Values) : ∀ (d : Option Nat),
    processSet a (processSet a vs d) d = processSet a vs d := by
  intro d
  cases vs with
  | nil => rfl
  | cons item rest =>
    rw [processSet_cons]
    by_cases he : (a.removeEmpty && is_empty (setChild a item d)) = true
    · rw [if_pos he]
      exact processSet_idem a rest d
    · rw [if_neg he]
      by_cases hv : a.valPred (setChild a item d) = true
      · rw [if_pos hv]
        exact processSet_idem a rest d
      · rw [if_neg hv]
        by_cases hh : is_hashable (setChild a item d) = true
        · rw [if_pos hh, processSet_cons, setChild_idem a item d,
            if_neg he, if_neg hv, if_pos hh, processSet_idem a rest d]
        · rw [if_neg hh]
          exact processSet_idem a rest d
end


/-- The empty-of-same-kind replacement is a fixed point of `process`. -/
lemma process_empty_like (a : PruneArgs) (x : Value) (d : Option Nat) :
    process a (empty_like x) d = empty_like x := by
  cases x <;> rfl

/-- The empty-of-same-kind replacement is idempotent. -/
lemma empty_like_idem (x : Value) : empty_like (empty_like x) = empty_like x := by
  cases x <;> rfl

/-- When a processed root is empty, the empty replacement of the original
root is empty as well. -/
lemma is_empty_empty_like (a : PruneArgs) (x : Value) (d : Option Nat)
    (h : is_empty (process a x d) = true) : is_empty (empty_like x) = true := by
  cases x <;> simp_all [process, empty_like, is_empty, Values.length, Entries.length]

/-- Idempotence of `prune_checked` (the body after depth validation). -/
lemma prune_checked_idem (data : Value) (ks vs : PredSpec) (re : Bool)
    (mdn : Option Nat) (y : Value)
    (h : prune_checked data ks vs re mdn = .ok y) :
    prune_checked y ks vs re mdn = .ok y := by
  cases hks : make_predicate ks "keys_to_remove" with
  | error e =>
    rw [prune_checked.eq_def, hks] at h
    exact absurd h (by simp)
  | ok kpair =>
    obtain ⟨kp, ke⟩ := kpair
    cases hvs : make_predicate vs "values_to_remove" with
    | error e =>
      rw [prune_checked.eq_def, hks, hvs] at h
      exact absurd h (by simp)
    | ok vpair =>
      obtain ⟨vp, ve⟩ := vpair
      simp only [prune_checked.eq_def, hks, hvs] at h ⊢
      by_cases hfast : (ke && ve && !re) = true
      · rw [if_pos hfast] at h ⊢
      · rw [if_neg hfast] at h ⊢
        simp only [Except.ok.injEq] at h ⊢
        split at h
        · rename_i hre
          subst h
          rw [process_empty_like]
          have hre2 : (re && is_empty (empty_like data)) = true := by
            rw [Bool.and_eq_true] at hre ⊢
            exact ⟨hre.1, is_empty_empty_like _ _ _ hre.2⟩
          rw [if_pos hre2]
          exact empty_like_idem data
        · rename_i hre
          subst h
          rw [process_idem]
          rw [if_neg hre]

/-- C7: applying `prune_data` a second time with identical arguments to a
successful result returns that result unchanged. -/
theorem prune_data_idempotent :
    ∀ (data : Value) (ks vs : PredSpec) (re : Bool) (md : Option Int) (y : Value),
      prune_data data ks vs re md = .ok y →
      prune_data y ks vs re md = .ok y := by
  intro data ks vs re md y h
  cases md with
  | none =>
    simp only [prune_data] at h ⊢
    exact prune_checked_idem data ks vs re none y h
  | some m =>
    simp only [prune_data] at h ⊢
    by_cases hm : m < 0
    · rw [if_pos hm] at h
      exact absurd h (by simp)
    · rw [if_neg hm] at h ⊢
      exact prune_checked_idem data ks vs re (some m.toNat) y h

/-- Witness for C7 at a concrete input. -/
theorem prune_data_idempotent_witness :
    prune_data (vdict .nil) .pnone .pnone true none = .ok (vdict .nil) :=
  prune_data_idempotent (vdict (Entries.ofList [(vstr "a", vnone)])) .pnone .pnone true none
    (vdict .nil) rfl


/-! ## Hashability preservation (used for C6) -/

mutual
theorem is_hashable_process (a : PruneArgs) (v : Value) : ∀ (d : Option Nat),
    is_hashable v = true → is_hashable (process a v d) = true := by
  intro d hv
  cases v with
  | vdict es => exact absurd hv (by simp [is_hashable])
  | vlist items => exact absurd hv (by simp [is_hashable])
  | vset items => exact absurd hv (by simp [is_hashable])
  | vtuple items =>
    rw [(process_eq a d).2.2.1]
    exact allHashable_processSeq a items d (by simpa [is_hashable] using hv)
  | vfrozenset items =>
    rw [(process_eq a d).2.2.2.2]
    exact allHashable_processSet a items d
  | vnone => exact hv
  | vbool b => exact hv
  | vint n => exact hv
  | vstr s => exact hv
theorem is_hashable_pruneChild (a : PruneArgs) (v : Value) : ∀ (d : Option Nat),
    is_hashable v = true → is_hashable (pruneChild a v d) = true := by
  intro d hv
  unfold pruneChild
  by_cases hr : canRecurse a.maxDepth d = true
  · rw [if_pos hr]
    exact is_hashable_process a v (childDepth d) hv
  · rw [if_neg hr]
    exact hv
theorem allHashable_processSeq (a : PruneArgs) (vs : Values) : ∀ (d : Option Nat),
    allHashable vs = true → allHashable (processSeq a vs d) = true := by
  intro d hv
  cases vs with
  | nil => rfl
  | cons item rest =>
    rw [allHashable] at hv
    rw [Bool.and_eq_true] at hv
    rw [processSeq_cons]
    split
    · exact allHashable_processSeq a rest d hv.2
    · split
      · exact allHashable_processSeq a rest d hv.2
      · rw [allHashable, Bool.and_eq_true]
        exact ⟨is_hashable_pruneChild a item d hv.1, allHashable_processSeq a rest d hv.2⟩
theorem allHashable_processSet (a : PruneArgs) (vs : Values) : ∀ (d : Option Nat),
    allHashable (processSet a vs d) = true := by
  intro d
  cases vs with
  | nil => rfl
  | cons item rest =>
    rw [processSet_cons]
    split
    · exact allHashable_processSet a rest d
    · split
      · exact allHashable_processSet a rest d
      · split
        · rename_i hh
          rw [allHashable, Bool.and_eq_true]
          exact ⟨hh, allHashable_processSet a rest d⟩
        · exact allHashable_processSet a rest d
end


/-- Hashability is preserved by the set-element child computation. -/
theorem is_hashable_setChild (a : PruneArgs) (v : Value) (d : Option Nat)
    (hv : is_hashable v = true) : is_hashable (setChild a v d) = true := by
  unfold setChild
  split
  · exact is_hashable_process a v (childDepth d) hv
  · exact hv

/-! ## Depth monotonicity of the key-filter-only kernel (C6) -/

lemma keyOnlyArgs_maxDepth (kp : Value → Bool) (m : Nat) :
    (keyOnlyArgs kp m).maxDepth = some m := rfl

lemma keyOnlyArgs_keyPred (kp : Value → Bool) (m : Nat) :
    (keyOnlyArgs kp m).keyPred = kp := rfl

lemma keyOnlyArgs_valPred (kp : Value → Bool) (m : Nat) (x : Value) :
    (keyOnlyArgs kp m).valPred x = false := rfl

lemma keyOnlyArgs_removeEmpty (kp : Value → Bool) (m : Nat) :
    (keyOnlyArgs kp m).removeEmpty = false := rfl

mutual
theorem dm_process (kp : Value → Bool) (m1 m2 : Nat) (v : Value) :
    ∀ d : Nat, m1 ≤ m2 → d ≤ m1 → wf v = true →
    process (keyOnlyArgs kp m2) (process (keyOnlyArgs kp m1) v (some d)) (some d)
      = process (keyOnlyArgs kp m2) v (some d) := by
  intro d hm hd hwf
  cases v with
  | vdict es =>
    rw [(process_eq _ _).1, (process_eq _ _).1, (process_eq _ _).1]
    rw [dm_entries kp m1 m2 es d hm hd (by simpa [wf] using hwf)]
  | vlist items =>
    rw [(process_eq _ _).2.1, (process_eq _ _).2.1, (process_eq _ _).2.1]
    rw [dm_seq kp m1 m2 items d hm hd (by simpa [wf] using hwf)]
  | vtuple items =>
    rw [(process_eq _ _).2.2.1, (process_eq _ _).2.2.1, (process_eq _ _).2.2.1]
    rw [dm_seq kp m1 m2 items d hm hd (by simpa [wf] using hwf)]
  | vset items =>
    rw [(process_eq _ _).2.2.2.1, (process_eq _ _).2.2.2.1, (process_eq _ _).2.2.2.1]
    have h : allHashable items = true ∧ wfValues items = true := by
      simpa [wf, Bool.and_eq_true] using hwf
    rw [dm_set kp m1 m2 items d hm hd h.1 h.2]
  | vfrozenset items =>
    rw [(process_eq _ _).2.2.2.2, (process_eq _ _).2.2.2.2, (process_eq _ _).2.2.2.2]
    have h : allHashable items = true ∧ wfValues items = true := by
      simpa [wf, Bool.and_eq_true] using hwf
    rw [dm_set kp m1 m2 items d hm hd h.1 h.2]
  | vnone => rfl
  | vbool b => rfl
  | vint n => rfl
  | vstr s => rfl
theorem dm_child (kp : Value → Bool) (m1 m2 : Nat) (v : Value) :
    ∀ d : Nat, m1 ≤ m2 → d ≤ m1 → wf v = true →
    pruneChild (keyOnlyArgs kp m2) (pruneChild (keyOnlyArgs kp m1) v (some d)) (some d)
      = pruneChild (keyOnlyArgs kp m2) v (some d) := by
  intro d hm hd hwf
  by_cases hlt : d < m1
  · have h1 : canRecurse (keyOnlyArgs kp m1).maxDepth (some d) = true := by
      rw [keyOnlyArgs_maxDepth]
      simp [canRecurse]
      omega
    have h2 : canRecurse (keyOnlyArgs kp m2).maxDepth (some d) = true := by
      rw [keyOnlyArgs_maxDepth]
      simp [canRecurse]
      omega
    unfold pruneChild
    rw [if_pos h1, if_pos h2, if_pos h2]
    have := dm_process kp m1 m2 v (d + 1) hm (by omega) hwf
    simpa [childDepth] using this
  · have h1 : canRecurse (keyOnlyArgs kp m1).maxDepth (some d) = false := by
      rw [keyOnlyArgs_maxDepth]
      simp [canRecurse]
      omega
    unfold pruneChild
    rw [h1]
    simp only [Bool.false_eq_true, if_false]
theorem dm_setChild (kp : Value → Bool) (m1 m2 : Nat) (v : Value) :
    ∀ d : Nat, m1 ≤ m2 → d ≤ m1 → wf v = true →
    setChild (keyOnlyArgs kp m2) (setChild (keyOnlyArgs kp m1) v (some d)) (some d)
      = setChild (keyOnlyArgs kp m2) v (some d) := by
  intro d hm hd hwf
  by_cases hs : is_set_like v = true
  · unfold setChild
    simp only [hs, Bool.not_true, Bool.and_false, Bool.false_eq_true, if_false, hs]
  · by_cases hlt : d < m1
    · have h1 : (canRecurse (keyOnlyArgs kp m1).maxDepth (some d) && !is_set_like v) = true := by
        rw [keyOnlyArgs_maxDepth]
        simp [canRecurse, hs]
        omega
      have h2 : (canRecurse (keyOnlyArgs kp m2).maxDepth (some d) && !is_set_like v) = true := by
        rw [keyOnlyArgs_maxDepth]
        simp [canRecurse, hs]
        omega
      unfold setChild
      rw [if_pos h1]
      have h3 : (canRecurse (keyOnlyArgs kp m2).maxDepth (some d)
          && !is_set_like (process (keyOnlyArgs kp m1) v (childDepth (some d)))) = true := by
        rw [is_set_like_process]
        exact h2
      rw [if_pos h3, if_pos h2]
      have := dm_process kp m1 m2 v (d + 1) hm (by omega) hwf
      simpa [childDepth] using this
    · have h1 : (canRecurse (keyOnlyArgs kp m1).maxDepth (some d) && !is_set_like v) = false := by
        have hr : canRecurse (keyOnlyArgs kp m1).maxDepth (some d) = false := by
          rw [keyOnlyArgs_maxDepth]
          simp [canRecurse]
          omega
        simp [hr]
      unfold setChild
      rw [h1]
      simp only [Bool.false_eq_true, if_false]
theorem dm_entries (kp : Value → Bool) (m1 m2 : Nat) (es : Entries) :
    ∀ d : Nat, m1 ≤ m2 → d ≤ m1 → wfEntries es = true →
    processDict (keyOnlyArgs kp m2) (processDict (keyOnlyArgs kp m1) es (some d)) (some d)
      = processDict (keyOnlyArgs kp m2) es (some d) := by
  intro d hm hd hwf
  cases es with
  | nil => rfl
  | cons k v rest =>
    rw [wfEntries, Bool.and_eq_true, Bool.and_eq_true, Bool.and_eq_true] at hwf
    obtain ⟨⟨⟨hkh, hkw⟩, hvw⟩, hrw2⟩ := hwf
    have hcf1 : canFilter (keyOnlyArgs kp m1).maxDepth (some d) = true := by
      rw [keyOnlyArgs_maxDepth]
      simp [canFilter]
      omega
    have hcf2 : canFilter (keyOnlyArgs kp m2).maxDepth (some d) = true := by
      rw [keyOnlyArgs_maxDepth]
      simp [canFilter]
      omega
    rw [processDict_cons (keyOnlyArgs kp m1) k v rest (some d),
      processDict_cons (keyOnlyArgs kp m2) k v rest (some d)]
    simp only [hcf1, hcf2, Bool.true_and, keyOnlyArgs_keyPred, keyOnlyArgs_valPred,
      keyOnlyArgs_removeEmpty, Bool.false_and, Bool.and_false, Bool.false_eq_true, if_false]
    by_cases hk : kp k = true
    · simp only [hk, if_true]
      exact dm_entries kp m1 m2 rest d hm hd hrw2
    · simp only [hk, Bool.false_eq_true, if_false]
      rw [processDict_cons]
      simp only [hcf2, Bool.true_and, keyOnlyArgs_keyPred, keyOnlyArgs_valPred,
        keyOnlyArgs_removeEmpty, Bool.false_and, Bool.and_false, Bool.false_eq_true, if_false,
        hk, if_false]
      rw [dm_child kp m1 m2 v d hm hd hvw]
      rw [dm_entries kp m1 m2 rest d hm hd hrw2]
theorem dm_seq (kp : Value → Bool) (m1 m2 : Nat) (vs : Values) :
    ∀ d : Nat, m1 ≤ m2 → d ≤ m1 → wfValues vs = true →
    processSeq (keyOnlyArgs kp m2) (processSeq (keyOnlyArgs kp m1) vs (some d)) (some d)
      = processSeq (keyOnlyArgs kp m2) vs (some d) := by
  intro d hm hd hwf
  cases vs with
  | nil => rfl
  | cons item rest =>
    rw [wfValues, Bool.and_eq_true] at hwf
    obtain ⟨hiw, hrw2⟩ := hwf
    rw [processSeq_cons (keyOnlyArgs kp m1) item rest (some d),
      processSeq_cons (keyOnlyArgs kp m2) item rest (some d)]
    simp only [keyOnlyArgs_valPred, keyOnlyArgs_removeEmpty, Bool.false_and,
      Bool.false_eq_true, if_false]
    rw [processSeq_cons]
    simp only [keyOnlyArgs_valPred, keyOnlyArgs_removeEmpty, Bool.false_and,
      Bool.false_eq_true, if_false]
    rw [dm_child kp m1 m2 item d hm hd hiw]
    rw [dm_seq kp m1 m2 rest d hm hd hrw2]
theorem dm_set (kp : Value → Bool) (m1 m2 : Nat) (vs : Values) :
    ∀ d : Nat, m1 ≤ m2 → d ≤ m1 → allHashable vs = true → wfValues vs = true →
    processSet (keyOnlyArgs kp m2) (processSet (keyOnlyArgs kp m1) vs (some d)) (some d)
      = processSet (keyOnlyArgs kp m2) vs (some d) := by
  intro d hm hd hha hwf
  cases vs with
  | nil => rfl
  | cons item rest =>
    rw [allHashable, Bool.and_eq_true] at hha
    obtain ⟨hih, hrh⟩ := hha
    rw [wfValues, Bool.and_eq_true] at hwf
    obtain ⟨hiw, hrw2⟩ := hwf
    have hh1 : is_hashable (setChild (keyOnlyArgs kp m1) item (some d)) = true :=
      is_hashable_setChild (keyOnlyArgs kp m1) item (some d) hih
    have hh2 : is_hashable (setChild (keyOnlyArgs kp m2) item (some d)) = true :=
      is_hashable_setChild (keyOnlyArgs kp m2) item (some d) hih
    rw [processSet_cons (keyOnlyArgs kp m1) item rest (some d),
      processSet_cons (keyOnlyArgs kp m2) item rest (some d)]
    simp only [keyOnlyArgs_valPred, keyOnlyArgs_removeEmpty, Bool.false_and,
      Bool.false_eq_true, if_false]
    rw [if_pos hh1, if_pos hh2]
    rw [processSet_cons]
    simp only [keyOnlyArgs_valPred, keyOnlyArgs_removeEmpty, Bool.false_and,
      Bool.false_eq_true, if_false]
    rw [dm_setChild kp m1 m2 item d hm hd hiw]
    rw [if_pos hh2]
    rw [dm_set kp m1 m2 rest d hm hd hrh hrw2]
end


/-- C6: pruning to `max_depth=2` a structure already pruned to
`max_depth=1` with the same key spec (value spec `None`,
`remove_empty=False`) equals pruning the original structure directly to
`max_depth=2`, for every Python-constructible input. -/
theorem prune_depth_monotonic :
    ∀ (ks : PredSpec) (x y : Value), wf x = true →
      prune_data x ks .pnone false (some 1) = .ok y →
      prune_data y ks .pnone false (some 2) = prune_data x ks .pnone false (some 2) := by
  intro ks x y hwf h
  cases ks with
  | pnone =>
    have e1 : prune_data x .pnone .pnone false (some 1) = .ok x := rfl
    rw [e1] at h
    have hx : x = y := by simpa using h
    subst hx
    rfl
  | pinvalid =>
    have e1 : prune_data x .pinvalid .pnone false (some 1)
        = .error (.typeErr "keys_to_remove must be Iterable or Callable") := rfl
    rw [e1] at h
    exact absurd h (by simp)
  | pcallable f =>
    have e1 : prune_data x (.pcallable f) .pnone false (some 1)
        = .ok (process (keyOnlyArgs f 1) x (some 0)) := rfl
    rw [e1] at h
    have hy : y = process (keyOnlyArgs f 1) x (some 0) := by
      simpa using h.symm
    subst hy
    have e2 : ∀ z : Value, prune_data z (.pcallable f) .pnone false (some 2)
        = .ok (process (keyOnlyArgs f 2) z (some 0)) := fun z => rfl
    rw [e2, e2]
    exact congrArg Except.ok (dm_process f 1 2 x 0 (by omega) (by omega) hwf)
  | piterable items =>
    cases items with
    | nil =>
      have e1 : prune_data x (.piterable .nil) .pnone false (some 1) = .ok x := rfl
      rw [e1] at h
      have hx : x = y := by simpa using h
      subst hx
      rfl
    | cons i0 irest =>
      have e1 : prune_data x (.piterable (.cons i0 irest)) .pnone false (some 1)
          = .ok (process
              (keyOnlyArgs (fun z => Values.any (fun candidate => pyEq z candidate)
                (.cons i0 irest)) 1) x (some 0)) := rfl
      rw [e1] at h
      have hy : y = process
          (keyOnlyArgs (fun z => Values.any (fun candidate => pyEq z candidate)
            (.cons i0 irest)) 1) x (some 0) := by
        simpa using h.symm
      subst hy
      have e2 : ∀ z : Value, prune_data z (.piterable (.cons i0 irest)) .pnone false (some 2)
          = .ok (process
              (keyOnlyArgs (fun w => Values.any (fun candidate => pyEq w candidate)
                (.cons i0 irest)) 2) z (some 0)) := fun z => rfl
      rw [e2, e2]
      exact congrArg Except.ok
        (dm_process (fun z => Values.any (fun candidate => pyEq z candidate) (.cons i0 irest))
          1 2 x 0 (by omega) (by omega) hwf)

/-- Witness for C6 at a concrete input. -/
theorem prune_depth_monotonic_witness :
    prune_data (vdict (Entries.ofList [(vstr "a", vdict .nil)]))
        (.pcallable (fun v => decide (v = vstr "secret"))) .pnone false (some 2)
      = prune_data (vdict (Entries.ofList
          [(vstr "a", vdict (Entries.ofList [(vstr "secret", vint 1)]))]))
        (.pcallable (fun v => decide (v = vstr "secret"))) .pnone false (some 2) :=
  prune_depth_monotonic (.pcallable (fun v => decide (v = vstr "secret")))
    (vdict (Entries.ofList [(vstr "a", vdict (Entries.ofList [(vstr "secret", vint 1)]))]))
    (vdict (Entries.ofList [(vstr "a", vdict .nil)])) rfl rfl


/-! ## Collector limits (C8) -/

lemma entries_length_ofList (l : List (Value × Value)) :
    (Entries.ofList l).length = l.length := by
  induction l with
  | nil => rfl
  | cons h t ih =>
    obtain ⟨k, v⟩ := h
    simp [Entries.ofList, Entries.length, ih]

lemma values_length_ofList (l : List Value) :
    (Values.ofList l).length = l.length := by
  induction l with
  | nil => rfl
  | cons h t ih => simp [Values.ofList, Values.length, ih]

lemma insertSorted_length (lt : α → α → Bool) (x : α) (l : List α) :
    (insertSorted lt x l).length = l.length + 1 := by
  induction l with
  | nil => rfl
  | cons y ys ih =>
    rw [insertSorted]
    split
    · simp
    · simp [ih]

lemma sortBy_length (lt : α → α → Bool) (l : List α) :
    (sortBy lt l).length = l.length := by
  suffices h : ∀ acc : List α,
      (l.foldl (fun acc x => insertSorted lt x acc) acc).length = acc.length + l.length by
    simpa using h []
  induction l with
  | nil => simp
  | cons x xs ih =>
    intro acc
    simp only [List.foldl_cons, ih, insertSorted_length, List.length_cons]
    omega

lemma sortPairsByFst_length (l : List (Value × Value)) :
    (sortPairsByFst l).length = l.length := by
  rw [sortPairsByFst]
  split <;> rw [sortBy_length]

lemma collectEntries_length (a : WalkArgs) (es : Entries) (depth : Nat) :
    (collectEntries a es depth).length = es.length := by
  cases es with
  | nil => rfl
  | cons k v rest => simp [collectEntries, Entries.length, collectEntries_length a rest depth]

lemma collectItems_length (a : WalkArgs) (vs : Values) (depth : Nat) :
    (collectItems a vs depth).length = vs.length := by
  cases vs with
  | nil => rfl
  | cons v rest => simp [collectItems, Values.length, collectItems_length a rest depth]

lemma collectPairs_length (a : WalkArgs) (vs : Values) (depth : Nat) :
    (collectPairs a vs depth).length = vs.length := by
  cases vs with
  | nil => rfl
  | cons v rest => simp [collectPairs, Values.length, collectPairs_length a rest depth]

lemma dict_setitem_fst (acc : List (String × Value)) (label : String) (child : Value) :
    (dict_setitem acc label child).map Prod.fst =
      if label ∈ acc.map Prod.fst then acc.map Prod.fst
      else acc.map Prod.fst ++ [label] := by
  induction acc with
  | nil => simp [dict_setitem]
  | cons hd tl ih =>
    obtain ⟨l0, c0⟩ := hd
    by_cases hb : l0 = label
    · subst hb
      simp [dict_setitem]
    · rw [dict_setitem]
      rw [if_neg (by simpa using hb)]
      simp only [List.map_cons, ih]
      by_cases hm : label ∈ tl.map Prod.fst
      · rw [if_pos hm, if_pos (by simp [hm])]
      · rw [if_neg hm, if_neg (by simp [hm, Ne.symm hb])]
        simp

lemma buildDict_foldl_fst_congr :
    ∀ (l1 l2 : List (Value × Value)) (acc1 acc2 : List (String × Value)),
      l1.map Prod.fst = l2.map Prod.fst → acc1.map Prod.fst = acc2.map Prod.fst →
      (l1.foldl (fun acc kv => dict_setitem acc (pyStr kv.1) kv.2) acc1).map Prod.fst
        = (l2.foldl (fun acc kv => dict_setitem acc (pyStr kv.1) kv.2) acc2).map Prod.fst := by
  intro l1
  induction l1 with
  | nil =>
    intro l2 acc1 acc2 hl hacc
    cases l2 with
    | nil => simpa using hacc
    | cons y t => simp at hl
  | cons x t1 ih =>
    intro l2 acc1 acc2 hl hacc
    cases l2 with
    | nil => simp at hl
    | cons y t2 =>
      simp only [List.map_cons, List.cons.injEq] at hl
      obtain ⟨hxy, ht⟩ := hl
      simp only [List.foldl_cons]
      refine ih t2 _ _ ht ?_
      rw [dict_setitem_fst, dict_setitem_fst, hacc, hxy]

lemma buildDict_fst_congr (l1 l2 : List (Value × Value))
    (h : l1.map Prod.fst = l2.map Prod.fst) :
    (buildDict l1).map Prod.fst = (buildDict l2).map Prod.fst :=
  buildDict_foldl_fst_congr l1 l2 [] [] h rfl

lemma buildDict_length_congr (l1 l2 : List (Value × Value))
    (h : l1.map Prod.fst = l2.map Prod.fst) :
    (buildDict l1).length = (buildDict l2).length := by
  rw [← List.length_map (buildDict l1) Prod.fst, ← List.length_map (buildDict l2) Prod.fst,
    buildDict_fst_congr l1 l2 h]

lemma insertSorted_fst_congr (g : Value → Value → Bool) :
    ∀ (x1 x2 : Value × Value) (l1 l2 : List (Value × Value)),
      x1.1 = x2.1 → l1.map Prod.fst = l2.map Prod.fst →
      (insertSorted (fun a b => g a.1 b.1) x1 l1).map Prod.fst
        = (insertSorted (fun a b => g a.1 b.1) x2 l2).map Prod.fst := by
  intro x1 x2 l1
  induction l1 with
  | nil =>
    intro l2 hx hl
    cases l2 with
    | nil => simpa [insertSorted] using hx
    | cons y t => simp at hl
  | cons y1 t1 ih =>
    intro l2 hx hl
    cases l2 with
    | nil => simp at hl
    | cons y2 t2 =>
      simp only [List.map_cons, List.cons.injEq] at hl
      obtain ⟨hy, ht⟩ := hl
      rw [insertSorted, insertSorted]
      have hcmp : g x1.1 y1.1 = g x2.1 y2.1 := by rw [hx, hy]
      by_cases hc : g x1.1 y1.1 = true
      · rw [if_pos hc, if_pos (by rw [← hcmp]; exact hc)]
        simp [hx, hy, ht]
      · rw [if_neg hc, if_neg (by rw [← hcmp]; exact hc)]
        simp only [List.map_cons, hy, List.cons.injEq, true_and]
        exact ih t2 hx ht

lemma sortBy_fst_congr (g : Value → Value → Bool) :
    ∀ (l1 l2 : List (Value × Value)) (acc1 acc2 : List (Value × Value)),
      l1.map Prod.fst = l2.map Prod.fst → acc1.map Prod.fst = acc2.map Prod.fst →
      (l1.foldl (fun acc x => insertSorted (fun a b => g a.1 b.1) x acc) acc1).map Prod.fst
        = (l2.foldl (fun acc x => insertSorted (fun a b => g a.1 b.1) x acc) acc2).map Prod.fst := by
  intro l1
  induction l1 with
  | nil =>
    intro l2 acc1 acc2 hl hacc
    cases l2 with
    | nil => simpa using hacc
    | cons y t => simp at hl
  | cons x t1 ih =>
    intro l2 acc1 acc2 hl hacc
    cases l2 with
    | nil => simp at hl
    | cons y t2 =>
      simp only [List.map_cons, List.cons.injEq] at hl
      obtain ⟨hxy, ht⟩ := hl
      simp only [List.foldl_cons]
      exact ih t2 _ _ ht (insertSorted_fst_congr g x y acc1 acc2 hxy hacc)

lemma sortPairsByFst_fst_congr (l1 l2 : List (Value × Value))
    (h : l1.map Prod.fst = l2.map Prod.fst) :
    (sortPairsByFst l1).map Prod.fst = (sortPairsByFst l2).map Prod.fst := by
  unfold sortPairsByFst
  rw [h]
  by_cases hcomp : allComparable (l2.map Prod.fst) = true
  · rw [if_pos hcomp, if_pos hcomp]
    exact sortBy_fst_congr ltB l1 l2 [] [] h rfl
  · rw [if_neg hcomp, if_neg hcomp]
    exact sortBy_fst_congr (fun x y => pyStrLt (pyStr x) (pyStr y)) l1 l2 [] [] h rfl

lemma insertSorted_mem (lt : α → α → Bool) (y : α) :
    ∀ (l : List α) (x : α), (x = y ∨ x ∈ l) → x ∈ insertSorted lt y l := by
  intro l
  induction l with
  | nil =>
    intro x hx
    simp only [insertSorted]
    simpa using hx
  | cons z zs ih =>
    intro x hx
    rw [insertSorted]
    split
    · rcases hx with rfl | hx
      · exact List.mem_cons_self _ _
      · exact List.mem_cons_of_mem _ hx
    · rcases hx with rfl | hx
      · exact List.mem_cons_of_mem _ (ih x (Or.inl rfl))
      · rcases List.mem_cons.1 hx with rfl | hx
        · exact List.mem_cons_self _ _
        · exact List.mem_cons_of_mem _ (ih x (Or.inr hx))

lemma sortBy_mem (lt : α → α → Bool) (l : List α) (x : α) (h : x ∈ l) :
    x ∈ sortBy lt l := by
  suffices haux : ∀ (l : List α) (acc : List α) (x : α), (x ∈ acc ∨ x ∈ l) →
      x ∈ l.foldl (fun acc y => insertSorted lt y acc) acc by
    exact haux l [] x (Or.inr h)
  intro l
  induction l with
  | nil =>
    intro acc x hx
    simpa using hx
  | cons y ys ih =>
    intro acc x hx
    simp only [List.foldl_cons]
    rcases hx with hx | hx
    · exact ih _ x (Or.inl (insertSorted_mem lt y acc x (Or.inr hx)))
    · rcases List.mem_cons.1 hx with rfl | hx
      · exact ih _ x (Or.inl (insertSorted_mem lt x acc x (Or.inl rfl)))
      · exact ih _ x (Or.inr hx)

lemma sortPairsByFst_mem (l : List (Value × Value)) (x : Value × Value) (h : x ∈ l) :
    x ∈ sortPairsByFst l := by
  unfold sortPairsByFst
  split
  · exact sortBy_mem _ l x h
  · exact sortBy_mem _ l x h

lemma buildDict_mem_label :
    ∀ (l : List (Value × Value)) (acc : List (String × Value)) (label : String),
      (label ∈ acc.map Prod.fst ∨ label ∈ l.map (fun kv => pyStr kv.1)) →
      label ∈ (l.foldl (fun acc kv => dict_setitem acc (pyStr kv.1) kv.2) acc).map Prod.fst := by
  intro l
  induction l with
  | nil =>
    intro acc label h
    simpa using h
  | cons kv t ih =>
    intro acc label h
    simp only [List.foldl_cons]
    refine ih _ label ?_
    rcases h with h | h
    · left
      rw [dict_setitem_fst]
      split
      · exact h
      · exact List.mem_append_left _ h
    · simp only [List.map_cons] at h
      rcases List.mem_cons.1 h with h1 | h2
      · subst h1
        left
        rw [dict_setitem_fst]
        split
        · assumption
        · exact List.mem_append_right _ (List.mem_singleton.2 rfl)
      · exact Or.inr h2
    
lemma pySetOf_length_le (l : List Value) : (pySetOf l).length ≤ l.length := by
  suffices haux : ∀ (l : List Value) (acc : List Value),
      (l.foldl (fun acc x => if pySetMemList x acc then acc else acc ++ [x]) acc).length
        ≤ acc.length + l.length by
    simpa [pySetOf] using haux l []
  intro l
  induction l with
  | nil =>
    intro acc
    simp
  | cons x xs ih =>
    intro acc
    simp only [List.foldl_cons]
    refine le_trans (ih _) ?_
    split
    · simp
    · simp
      omega

lemma collectEntries_fst (a : WalkArgs) (es : Entries) (depth : Nat) :
    (collectEntries a es depth).map Prod.fst = Entries.keysList es := by
  cases es with
  | nil => rfl
  | cons k v rest =>
    simp [collectEntries, Entries.keysList, collectEntries_fst a rest depth]

lemma keysList_ofList_map (l : List (String × Value)) :
    Entries.keysList (Entries.ofList (l.map (fun lc => (vstr lc.1, lc.2))))
      = l.map (fun lc => vstr lc.1) := by
  induction l with
  | nil => rfl
  | cons hd tl ih => simp [Entries.ofList, Entries.keysList, ih]

/-- C8: the collector behind `walk` never item-limits mappings — the
number of collected mapping entries does not depend on
`max_items_per_container` and every key's `str()` label appears in the
collected mapping (keys whose `str()` collide merge into one entry via
`result[label] = child`, independently of any item limit) — while
sequences are truncated to exactly the first `min(N, len)` elements and
sets to at most `min(N, len)` elements (`set(...)` may deduplicate
further); the concrete example from the spec evaluates as stated. -/
theorem walk_collect_limits :
    (∀ (md n1 n2 : Option Nat) (sk so : Bool) (es : Entries) (depth : Nat),
      at_depth_limit md depth = false →
      ∃ es1 es2 : Entries,
        collect_data ⟨md, n1, sk, so⟩ (vdict es) depth = vdict es1 ∧
        collect_data ⟨md, n2, sk, so⟩ (vdict es) depth = vdict es2 ∧
        es1.length = es2.length) ∧
    (∀ (a : WalkArgs) (es : Entries) (depth : Nat),
      at_depth_limit a.maxDepth depth = false →
      ∃ es2 : Entries, collect_data a (vdict es) depth = vdict es2 ∧
        ∀ k, k ∈ Entries.keysList es → vstr (pyStr k) ∈ Entries.keysList es2) ∧
    (∀ (a : WalkArgs) (vs : Values) (depth n : Nat),
      at_depth_limit a.maxDepth depth = false → a.maxItems = some n →
      ∃ vs2 : Values, collect_data a (vlist vs) depth = vlist vs2 ∧
        vs2.length = min n vs.length) ∧
    (∀ (a : WalkArgs) (vs : Values) (depth n : Nat),
      at_depth_limit a.maxDepth depth = false → a.maxItems = some n →
      ∃ vs2 : Values, collect_data a (vset vs) depth = vset vs2 ∧
        vs2.length ≤ min n vs.length) ∧
    walk ⟨none, some 3, true, true⟩
      (vdict (Entries.ofList
        [(vstr "a", vint 1),
         (vstr "b", vlist (Values.ofList [vint 1, vint 2, vint 3, vint 4, vint 5])),
         (vstr "c", vdict (Entries.ofList [(vstr "d", vstr "x")]))]))
    = vdict (Entries.ofList
        [(vstr "a", vint 1),
         (vstr "b", vlist (Values.ofList [vint 1, vint 2, vint 3])),
         (vstr "c", vdict (Entries.ofList [(vstr "d", vstr "x")]))]) := by
  refine ⟨?_, ?_, ?_, ?_, rfl⟩
  · intro md n1 n2 sk so es depth hlim
    refine ⟨_, _, by simp [collect_data, hlim]; rfl, by simp [collect_data, hlim]; rfl, ?_⟩
    rw [entries_length_ofList, entries_length_ofList, List.length_map, List.length_map]
    apply buildDict_length_congr
    have h1 : (collectEntries ⟨md, n1, sk, so⟩ es depth).map Prod.fst
        = (collectEntries ⟨md, n2, sk, so⟩ es depth).map Prod.fst := by
      rw [collectEntries_fst, collectEntries_fst]
    by_cases hsk : sk = true
    · rw [if_pos hsk, if_pos hsk]
      exact sortPairsByFst_fst_congr _ _ h1
    · rw [if_neg hsk, if_neg hsk]
      exact h1
  · intro a es depth hlim
    refine ⟨_, by simp [collect_data, hlim]; rfl, ?_⟩
    intro k hk
    rw [keysList_ofList_map]
    have hk2 : k ∈ (collectEntries a es depth).map Prod.fst := by
      rw [collectEntries_fst]
      exact hk
    obtain ⟨x, hx, hx1⟩ := List.mem_map.1 hk2
    have hxo : x ∈ (if a.sortKeys = true then sortPairsByFst (collectEntries a es depth)
        else collectEntries a es depth) := by
      split
      · exact sortPairsByFst_mem _ x hx
      · exact hx
    have hlab : pyStr k ∈ (buildDict (if a.sortKeys = true
        then sortPairsByFst (collectEntries a es depth)
        else collectEntries a es depth)).map Prod.fst := by
      unfold buildDict
      exact buildDict_mem_label _ [] _ (Or.inr (List.mem_map.2 ⟨x, hxo, by rw [hx1]⟩))
    obtain ⟨lc, hlc, hfst⟩ := List.mem_map.1 hlab
    exact List.mem_map.2 ⟨lc, hlc, by rw [hfst]⟩
  · intro a vs depth n hlim hn
    refine ⟨_, by simp [collect_data, hlim]; rfl, ?_⟩
    rw [values_length_ofList, hn]
    simp [takeOpt, List.length_take, collectItems_length]
  · intro a vs depth n hlim hn
    refine ⟨_, by simp [collect_data, hlim]; rfl, ?_⟩
    rw [values_length_ofList]
    refine le_trans (pySetOf_length_le _) ?_
    rw [List.length_map, hn]
    simp only [takeOpt, List.length_take]
    have hol : (if a.setSorted = true then sortPairsByFst (collectPairs a vs depth)
        else collectPairs a vs depth).length = Values.length vs := by
      split
      · rw [sortPairsByFst_length, collectPairs_length]
      · rw [collectPairs_length]
    rw [hol]

theorem walk_collect_limits_witness :
    ∃ es1 es2 : Entries,
      collect_data ⟨none, some 1, true, true⟩
        (vdict (Entries.ofList [(vstr "a", vint 1), (vstr "b", vint 2), (vstr "c", vint 3)])) 0
        = vdict es1 ∧
      collect_data ⟨none, none, true, true⟩
        (vdict (Entries.ofList [(vstr "a", vint 1), (vstr "b", vint 2), (vstr "c", vint 3)])) 0
        = vdict es2 ∧
      es1.length = es2.length :=
  walk_collect_limits.1 none (some 1) none true true
    (Entries.ofList [(vstr "a", vint 1), (vstr "b", vint 2), (vstr "c", vint 3)]) 0 rfl

/-! ## Date arithmetic lemmas (C5) -/

lemma daysInMonth_pos (y : Int) (m : Nat) : 1 ≤ daysInMonth y m := by
  unfold daysInMonth
  split
  · split <;> omega
  all_goals omega

lemma daysInMonth_dec (y : Int) : daysInMonth y 12 = 31 := rfl

lemma dlt_succDay (d : Date) : dlt d (succDay d) := by
  unfold succDay dlt
  split
  · simp
  · split <;> simp

lemma dlt_trans {a b c : Date} (h1 : dlt a b) (h2 : dlt b c) : dlt a c := by
  unfold dlt at h1 h2 ⊢
  omega

lemma dle_of_not_dlt_rev (a b : Date) : dle a b ↔ ¬ dlt b a := by
  obtain ⟨ay, am, ad⟩ := a
  obtain ⟨cy, cm, cd⟩ := b
  simp only [dle, dlt, Date.mk.injEq]
  omega

lemma predDay_valid (d : Date) (h : d.Valid) : (predDay d).Valid := by
  obtain ⟨h1, h2, h3, h4⟩ := h
  have hp := daysInMonth_pos d.year d.month
  unfold predDay Date.Valid
  split
  · simp only
    omega
  · split
    · simp only
      refine ⟨by omega, by omega, daysInMonth_pos _ _, le_refl _⟩
    · simp only
      rw [daysInMonth_dec]
      omega

lemma succ_pred (d : Date) (h : d.Valid) : succDay (predDay d) = d := by
  obtain ⟨y, m, day⟩ := d
  obtain ⟨h1, h2, h3, h4⟩ := h
  simp only at h1 h2 h3 h4
  unfold predDay
  simp only
  by_cases hd : 1 < day
  · rw [if_pos hd]
    unfold succDay
    simp only
    have hlt : day - 1 < daysInMonth y m := by
      have := daysInMonth_pos y m
      omega
    rw [if_pos hlt]
    simp
    omega
  · rw [if_neg hd]
    by_cases hmm2 : 1 < m
    · rw [if_pos hmm2]
      unfold succDay
      simp only
      rw [if_neg (by omega)]
      rw [if_pos (by omega)]
      simp
      omega
    · rw [if_neg hmm2]
      unfold succDay
      simp only [daysInMonth_dec]
      rw [if_neg (by omega)]
      rw [if_neg (by omega)]
      simp
      omega

lemma subDays_succ_out (d : Date) (n : Nat) :
    subDays d (n + 1) = predDay (subDays d n) := by
  induction n generalizing d with
  | zero => rfl
  | succ n ih =>
    show subDays (predDay d) (n + 1) = predDay (subDays d (n + 1))
    rw [ih (predDay d)]
    rfl

lemma subDays_valid (d : Date) (k : Nat) (h : d.Valid) : (subDays d k).Valid := by
  induction k generalizing d with
  | zero => exact h
  | succ k ih =>
    show (subDays (predDay d) k).Valid
    exact ih (predDay d) (predDay_valid d h)

lemma addDays_subDays (d : Date) (k : Nat) (h : d.Valid) :
    addDays (subDays d k) k = d := by
  induction k with
  | zero => rfl
  | succ k ih =>
    rw [subDays_succ_out]
    show addDays (succDay (predDay (subDays d k))) k = d
    rw [succ_pred (subDays d k) (subDays_valid d k h)]
    exact ih

lemma subDays_add (d : Date) (a b : Nat) :
    subDays d (a + b) = subDays (subDays d a) b := by
  induction a generalizing d with
  | zero =>
    rw [Nat.zero_add]
    rfl
  | succ a ih =>
    have e : a + 1 + b = (a + b) + 1 := by omega
    rw [e]
    show subDays (predDay d) (a + b) = subDays (subDays d (a + 1)) b
    rw [ih (predDay d)]
    rfl

lemma addDays_add (d : Date) (a b : Nat) :
    addDays d (a + b) = addDays (addDays d a) b := by
  induction a generalizing d with
  | zero =>
    rw [Nat.zero_add]
    rfl
  | succ a ih =>
    have e : a + 1 + b = (a + b) + 1 := by omega
    rw [e]
    show addDays (succDay d) (a + b) = addDays (addDays d (a + 1)) b
    rw [ih (succDay d)]
    rfl

lemma dle_addDays (d : Date) (k : Nat) : dle d (addDays d k) := by
  induction k generalizing d with
  | zero => exact Or.inr rfl
  | succ k ih =>
    show dle d (addDays (succDay d) k)
    rcases ih (succDay d) with h | h
    · exact Or.inl (dlt_trans (dlt_succDay d) h)
    · rw [← h]
      exact Or.inl (dlt_succDay d)

lemma dlt_addDays_pos (d : Date) (k : Nat) (hk : 1 ≤ k) : dlt d (addDays d k) := by
  obtain ⟨j, rfl⟩ : ∃ j, k = j + 1 := ⟨k - 1, by omega⟩
  show dlt d (addDays (succDay d) j)
  rcases dle_addDays (succDay d) j with h | h
  · exact dlt_trans (dlt_succDay d) h
  · rw [← h]
    exact dlt_succDay d

lemma dlt_addDays_of_lt (d : Date) (a b : Nat) (h : a < b) :
    dlt (addDays d a) (addDays d b) := by
  have e : b = a + (b - a) := by omega
  rw [e, addDays_add]
  exact dlt_addDays_pos (addDays d a) (b - a) (by omega)

lemma weekday_lt (d : Date) : weekday d < 7 := by
  unfold weekday
  have h1 : 0 ≤ (rataDie d + 1) % 7 := Int.emod_nonneg _ (by norm_num)
  have h2 : (rataDie d + 1) % 7 < 7 := Int.emod_lt_of_pos _ (by norm_num)
  omega

lemma addMonths_monthIndex (d : Date) (n : Int) :
    12 * (addMonths d n).year + ((addMonths d n).month : Int)
      = 12 * d.year + (d.month : Int) + n := by
  unfold addMonths
  simp only
  have h1 : 0 ≤ (12 * d.year + ((d.month : Int) - 1) + n) % 12 :=
    Int.emod_nonneg _ (by norm_num)
  have h2 : (12 * d.year + ((d.month : Int) - 1) + n) % 12 < 12 :=
    Int.emod_lt_of_pos _ (by norm_num)
  have h3 : 12 * ((12 * d.year + ((d.month : Int) - 1) + n) / 12)
      + (12 * d.year + ((d.month : Int) - 1) + n) % 12
      = 12 * d.year + ((d.month : Int) - 1) + n := Int.ediv_add_emod _ _
  push_cast
  omega

lemma addMonths_month_bounds (d : Date) (n : Int) :
    1 ≤ (addMonths d n).month ∧ (addMonths d n).month ≤ 12 := by
  unfold addMonths
  simp only
  have h1 : 0 ≤ (12 * d.year + ((d.month : Int) - 1) + n) % 12 :=
    Int.emod_nonneg _ (by norm_num)
  have h2 : (12 * d.year + ((d.month : Int) - 1) + n) % 12 < 12 :=
    Int.emod_lt_of_pos _ (by norm_num)
  omega


lemma dlt_asymm {a b : Date} (h : dlt a b) : ¬ dlt b a := by
  unfold dlt at h ⊢
  omega

/-- The untrimmed frame end at offset `-i` (for `i ≥ 1`) lies strictly
before the anchor, for every period type. -/
lemma frame_end_lt (date_part : DatePart) (date_end : Date) (hv : date_end.Valid)
    (i : Nat) (hi : 1 ≤ i) :
    dlt (get_relative_date_frame date_part (-(i : Int)) date_end).2 date_end := by
  cases date_part with
  | day =>
    unfold get_relative_date_frame
    simp only
    have e : addDaysInt date_end (-(i : Int)) = subDays date_end i := by
      unfold addDaysInt
      rw [if_neg (by omega)]
      congr 1
      omega
    rw [e]
    have h := dlt_addDays_pos (subDays date_end i) i hi
    rw [addDays_subDays date_end i hv] at h
    exact h
  | week =>
    unfold get_relative_date_frame
    simp only
    have e : addDaysInt date_end (7 * -(i : Int)) = subDays date_end (7 * i) := by
      unfold addDaysInt
      rw [if_neg (by omega)]
      congr 1
      omega
    rw [e]
    have htv : (subDays date_end (7 * i)).Valid := subDays_valid date_end (7 * i) hv
    have hwd : weekday (subDays date_end (7 * i)) < 7 := weekday_lt _
    rw [← subDays_add date_end (7 * i) (weekday (subDays date_end (7 * i)))]
    have h1 : dlt
        (addDays (subDays date_end (7 * i + weekday (subDays date_end (7 * i)))) 6)
        (addDays (subDays date_end (7 * i + weekday (subDays date_end (7 * i))))
          (7 * i + weekday (subDays date_end (7 * i)))) :=
      dlt_addDays_of_lt _ 6 _ (by omega)
    rw [addDays_subDays date_end _ hv] at h1
    exact h1
  | month =>
    unfold get_relative_date_frame
    simp only
    have h1 := addMonths_monthIndex date_end (-(i : Int))
    have h2 := addMonths_month_bounds date_end (-(i : Int))
    obtain ⟨hv1, hv2, _, _⟩ := hv
    unfold dlt
    simp only
    omega
  | quarter =>
    unfold get_relative_date_frame
    simp only
    have h1 := addMonths_monthIndex date_end (3 * -(i : Int))
    have h2 := addMonths_month_bounds date_end (3 * -(i : Int))
    obtain ⟨hv1, hv2, _, _⟩ := hv
    unfold dlt
    simp only
    omega
  | year =>
    unfold get_relative_date_frame
    simp only
    unfold addYears dlt
    simp only
    omega

/-- C5: in `calendar_periods` with `trim_last_period=True`, clipping only
ever affects the period at offset 0: for every period type, anchor and
`i ≥ 1`, the untrimmed end of the period at offset `-i` does not exceed
`date_end`, and consequently the generated list with trimming agrees with
the untrimmed list at every index `i ≥ 1`. -/
theorem calendar_periods_trim_only_first :
    ∀ (date_part : DatePart) (date_end : Date), date_end.Valid →
      (∀ i : Nat, 1 ≤ i →
        dle (get_relative_date_frame date_part (-(i : Int)) date_end).2 date_end) ∧
      (∀ count i : Nat, 1 ≤ i →
        (calendar_periods date_part count date_end true)[i]?
          = (calendar_periods date_part count date_end false)[i]?) := by
  intro date_part date_end hv
  constructor
  · intro i hi
    exact Or.inl (frame_end_lt date_part date_end hv i hi)
  · intro count i hi
    unfold calendar_periods
    rw [List.getElem?_map, List.getElem?_map]
    by_cases hic : i < count
    · rw [List.getElem?_range hic]
      simp only [Option.map_some']
      have hnot : ¬ dlt date_end (get_relative_date_frame date_part (-(i : Int)) date_end).2 :=
        dlt_asymm (frame_end_lt date_part date_end hv i hi)
      simp [dltB, hnot]
    · rw [List.getElem?_eq_none (by simpa [List.length_range] using hic)]
      rfl

/-- Witness for C5 at a concrete anchor. -/
theorem calendar_periods_trim_only_first_witness :
    dle (get_relative_date_frame .month (-((1 : Nat) : Int)) ⟨2024, 6, 15⟩).2 ⟨2024, 6, 15⟩ :=
  (calendar_periods_trim_only_first .month ⟨2024, 6, 15⟩ (by decide)).1 1 (by omega)

end Etlutil
